import Mathlib

/-!
gcal-conky: calendar grid and event list

A shallow embedding of `src/main.go` (`color`, `isToday`, `isTomorrow`, `printCal`,
`firstDayOfWeek`, `lastDayOfWeek`, the formatting loop of `entries`, `max`, the loop of `main`)
together with a model of the parts of Go's `time`, `fmt` and `strings` packages that these
functions call.

Modelling conventions.

* A `time.Time` is a wall time: a day number (days since 0001-01-01 of the proleptic Gregorian
  calendar, the calendar of Go's `time` package) and the seconds since midnight of that day.
  Day numbers are unbounded integers (Go's 64-bit second counter covers about 292 billion
  years on either side).
* `Date`, `Time.AddDate`, `firstDayOfWeek`, `lastDayOfWeek` and `printCal` are the functions in
  a location without zone transitions (UTC, a fixed offset), where every wall time exists.
  `DateIn`, `Time.AddDateIn`, `firstDayOfWeekIn`, `lastDayOfWeekIn` and `printCalIn` are the
  same functions in an arbitrary `Location`, where `time.Date` moves a wall time that a zone
  transition skips.
* `time.Now()` is an explicit parameter `now`; one run of the program sees one reading.
* A Go `string` is the list of its bytes, `GoString`; `utf8` gives the bytes of a text, as of a
  string literal of the source or a value decoded from JSON.  Slices, lengths and comparisons
  are on bytes, as in Go.
* A Go run-time panic is the error side of `Except Fault`.
-/

namespace GcalConky

/-! ## Go's `time` package: calendar arithmetic -/

/-- Go `time.isLeap`. -/
def isLeap (year : Int) : Bool :=
  year % 4 == 0 && (year % 100 != 0 || year % 400 == 0)

/-- Go `time.daysBefore`: `daysBefore[m]` counts the days of a non-leap year before month `m+1`. -/
def daysBeforeTable : List Int :=
  [0, 31, 59, 90, 120, 151, 181, 212, 243, 273, 304, 334, 365]

/-- Lookup in the table `daysBefore`. -/
def daysBefore (i : Int) : Int := daysBeforeTable.getD i.toNat 0

/-- Go `time.daysIn`. -/
def daysIn (m year : Int) : Int :=
  if m = 2 ∧ isLeap year = true then 29 else daysBefore m - daysBefore (m - 1)

/-- Go `time.daysSinceEpoch`, counted from 0001-01-01: the number of days before January 1 of
`year`, by 400-year, 100-year and 4-year cycles. -/
def daysSinceEpoch (year : Int) : Int :=
  let y := year - 1
  let n := y / 400
  let y := y - 400 * n
  let d := 146097 * n
  let n := y / 100
  let y := y - 100 * n
  let d := d + 36524 * n
  let n := y / 4
  let y := y - 4 * n
  let d := d + 1461 * n
  d + 365 * y

/-- First half of Go `time.absDate`: year and zero-based day of the year of a day number. -/
def yearDay (abs : Int) : Int × Int :=
  let d := abs
  let n := d / 146097
  let y := 400 * n
  let d := d - 146097 * n
  let n := d / 36524
  let n := n - n / 4
  let y := y + 100 * n
  let d := d - 36524 * n
  let n := d / 1461
  let y := y + 4 * n
  let d := d - 1461 * n
  let n := d / 365
  let n := n - n / 4
  let y := y + n
  let d := d - 365 * n
  (y + 1, d)

/-- Second half of Go `time.absDate`: month and day of the month from the day of the year. -/
def monthDay (leap : Bool) (yday : Int) : Int × Int :=
  if leap = true ∧ yday = 31 + 29 - 1 then (2, 29)
  else
    let day := if leap = true ∧ yday > 31 + 29 - 1 then yday - 1 else yday
    let month := day / 31
    let e := daysBefore (month + 1)
    if day ≥ e then (month + 1 + 1, day - e + 1)
    else (month + 1, day - daysBefore month + 1)

/-- Go `time.absDate`: year, month (1..12) and day of the month of a day number. -/
def absDate (abs : Int) : Int × Int × Int :=
  let yd := yearDay abs
  let md := monthDay (isLeap yd.1) yd.2
  (yd.1, md.1, md.2)

/-- Zero-based day of the year of month `m`, day `d`, as `time.Date` adds it up (`d` may lie
outside the month). -/
def ydayOf (leap : Bool) (m d : Int) : Int :=
  daysBefore (m - 1) + (if leap = true ∧ m ≥ 3 then 1 else 0) + (d - 1)

/-- A `time.Time` as a wall time: day number since 0001-01-01 and seconds since midnight. -/
structure Time where
  abs : Int
  clock : Nat
deriving DecidableEq, Repr

/-- Go `time.Date` in a location without zone transitions: months outside 1..12 overflow into
the year, days outside the month overflow into the day number. -/
def Date (year month day : Int) (clock : Nat) : Time :=
  let m := month - 1
  let year := year + m / 12
  let m := m % 12
  let month := m + 1
  ⟨daysSinceEpoch year + ydayOf (isLeap year) month day, clock⟩

/-- Go `Time.Year`. -/
def Time.Year (t : Time) : Int := (absDate t.abs).1

/-- Go `Time.Month` (January = 1). -/
def Time.Month (t : Time) : Int := (absDate t.abs).2.1

/-- Go `Time.Day`. -/
def Time.Day (t : Time) : Int := (absDate t.abs).2.2

/-- Go `Time.Weekday`: Sunday = 0, ..., Saturday = 6.  Day number 0 (0001-01-01) is a Monday. -/
def Time.Weekday (t : Time) : Int := (t.abs + 1) % 7

/-- Go `Time.AddDate` in a location without zone transitions: adds to the calendar fields and
normalises through `Date`. -/
def Time.AddDate (t : Time) (years months days : Int) : Time :=
  Date (t.Year + years) (t.Month + months) (t.Day + days) t.clock

/-! ## Go's `time` package: locations -/

/-- A Go `time.Location` through its `lookup`: for an instant `u` (seconds since
0001-01-01T00:00:00Z) the offset in seconds east of UTC in force at `u`, and the start and the
end of the period of instants in which that offset is in force. -/
structure Location where
  lookup : Int → Int × Int × Int

/-- The location `time.UTC`: offset 0 at every instant (the period bounds are not read). -/
def Location.utc : Location := ⟨fun _ => (0, 0, 0)⟩

/-- The wall time that an instant has in a location. -/
def Location.wall (loc : Location) (u : Int) : Time :=
  let w := u + (loc.lookup u).1
  ⟨w / 86400, (w % 86400).toNat⟩

/-- Go `time.Date` in a location: the wall time is first read as an instant to find a zone
offset; if the instant it then denotes lies outside the period of that offset, the offset in
force at that instant is taken instead.  A wall time that exists in the location is returned
as it is; a wall time that a transition skips is moved. -/
def DateIn (loc : Location) (year month day : Int) (clock : Nat) : Time :=
  let t := Date year month day clock
  let unix := t.abs * 86400 + (t.clock : Int)
  let z := loc.lookup unix
  let unix :=
    if z.1 ≠ 0 then
      let utc := unix - z.1
      let offset := if utc < z.2.1 ∨ utc ≥ z.2.2 then (loc.lookup utc).1 else z.1
      unix - offset
    else unix
  loc.wall unix

/-- Go `Time.AddDate` of a time in the location `loc`. -/
def Time.AddDateIn (loc : Location) (t : Time) (years months days : Int) : Time :=
  DateIn loc (t.Year + years) (t.Month + months) (t.Day + days) t.clock

/-- The zone rules of America/Santiago in force from 2024-04-07 to 2025-04-06: UTC-4 until the
instant 2024-09-08T04:00:00Z (local midnight), UTC-3 from then on, so the wall times
2024-09-08 00:00:00 to 00:59:59 do not exist.  Day 739136 is 2024-09-08, 739130 is 2024-09-02. -/
def Location.santiago : Location :=
  ⟨fun u =>
    if u < 739136 * 86400 + 14400 then (-14400, 738982 * 86400 + 10800, 739136 * 86400 + 14400)
    else (-10800, 739136 * 86400 + 14400, 739346 * 86400 + 10800)⟩

/-! ## Go strings, run-time and `fmt` -/

/-- A Go `string`: the list of its bytes. -/
abbrev GoString := List UInt8

/-- The Go string of a text: its UTF-8 encoding. -/
def utf8 (s : String) : GoString :=
  s.data.flatMap String.utf8EncodeChar

/-- Go `Month.String`. -/
def monthName (m : Int) : GoString :=
  utf8 (if 1 ≤ m ∧ m ≤ 12 then
    ["January", "February", "March", "April", "May", "June", "July", "August", "September",
      "October", "November", "December"].getD (m - 1).toNat ""
  else "%!Month(" ++ toString m ++ ")")

/-- Go `Weekday.String`. -/
def weekdayName (d : Int) : GoString :=
  utf8 (if 0 ≤ d ∧ d ≤ 6 then
    ["Sunday", "Monday", "Tuesday", "Wednesday", "Thursday", "Friday", "Saturday"].getD d.toNat ""
  else "%!Weekday(" ++ toString d ++ ")")

/-- The zero `time.Time`, January 1 of year 1, 00:00:00 UTC: what `time.Parse` returns beside an
error. -/
def zeroTime : Time := ⟨0, 0⟩

/-- Value of the byte of a decimal digit, `none` for any other byte. -/
def digitVal (c : UInt8) : Option Int :=
  if 48 ≤ c.toNat ∧ c.toNat ≤ 57 then some ((c.toNat : Int) - 48) else none

/-- Go `time.Parse("2006-01-02", value)`: four year digits, two month digits, two day digits,
separated by `-` (byte 45), nothing after them; the month must lie in 1..12 and the day in the
month.  The result is a time in UTC; `none` stands for the returned error. -/
def parseDate (value : GoString) : Option Time :=
  match value with
  | [y1, y2, y3, y4, s1, m1, m2, s2, d1, d2] =>
    match digitVal y1, digitVal y2, digitVal y3, digitVal y4, digitVal m1, digitVal m2,
      digitVal d1, digitVal d2 with
    | some a, some b, some c, some d, some e, some f, some g, some h =>
      let year := 1000 * a + 100 * b + 10 * c + d
      let month := 10 * e + f
      let day := 10 * g + h
      if s1 = 45 ∧ s2 = 45 ∧ 1 ≤ month ∧ month ≤ 12 ∧ 1 ≤ day ∧ day ≤ daysIn month year then
        some (Date year month day 0)
      else none
    | _, _, _, _, _, _, _, _ => none
  | _ => none

/-- Run-time panics of the Go program that the embedding tracks. -/
inductive Fault where
  | indexOutOfRange
  | sliceBounds
deriving DecidableEq, Repr

/-- Go slice expression `s[lo:hi]` on a string: the bytes `lo` to `hi - 1`; it panics unless
`lo ≤ hi ≤ len(s)`, the length in bytes. -/
def slice (s : GoString) (lo hi : Nat) : Except Fault GoString :=
  if lo ≤ hi ∧ hi ≤ s.length then .ok ((s.drop lo).take (hi - lo)) else .error .sliceBounds

/-- Go index expression `xs[i]` read from a slice of strings. -/
def getAt (xs : List GoString) (i : Nat) : Except Fault GoString :=
  match xs.get? i with
  | some x => .ok x
  | none => .error .indexOutOfRange

/-- Go assignment `xs[i] = v` on a slice of strings. -/
def setAt (xs : List GoString) (i : Nat) (v : GoString) : Except Fault (List GoString) :=
  if i < xs.length then .ok (xs.set i v) else .error .indexOutOfRange

/-- Go `fmt.Sprintf("%2d", n)`: the decimal numeral, padded on the left with blanks (byte 32)
to width 2. -/
def fmtD2 (n : Int) : GoString :=
  let s := utf8 (toString n)
  List.replicate (2 - s.length) 32 ++ s

/-- Scanner of `strings.Replace` for a non-empty `old`: `skip` counts the bytes of a match that
are still to be passed over; outside a match, a position where `old` starts is replaced by
`new`, any other byte is kept. -/
def replaceScan (old new : GoString) : Nat → GoString → GoString
  | _, [] => []
  | skip + 1, _ :: cs => replaceScan old new skip cs
  | 0, c :: cs =>
    if old <+: c :: cs then new ++ replaceScan old new (old.length - 1) cs
    else c :: replaceScan old new 0 cs

/-- Go `strings.Replace(s, old, new, -1)` for a non-empty `old`: every non-overlapping
occurrence of `old`, found from left to right, is replaced by `new`. -/
def stringsReplace (s old new : GoString) (_h : old ≠ []) : GoString :=
  replaceScan old new 0 s

/-! ## `src/main.go` -/

/-- Source `color` (main.go:71-73): `fmt.Sprintf("$\x7bcolor%v\x7d%v$\x7bcolor0\x7d", c, str)`. -/
def color (c : Int) (str : GoString) : GoString :=
  utf8 "$\x7bcolor" ++ utf8 (toString c) ++ utf8 "\x7d" ++ str ++ utf8 "$\x7bcolor0\x7d"

/-- Source `isToday` (main.go:75-78), with the clock reading `today := time.Now()` passed in. -/
def isToday (now t : Time) : Bool :=
  t.Day == now.Day && t.Month == now.Month && t.Year == now.Year

/-- Source `isTomorrow` (main.go:80-82), for a time in a location without zone transitions (in
`entries` the argument comes from `time.Parse`, in UTC). -/
def isTomorrow (now t : Time) : Bool :=
  isToday now (t.AddDate 0 0 (-1))

/-- Source `firstDayOfWeek` (main.go:114-116) in a location without zone transitions. -/
def firstDayOfWeek (t : Time) : Time :=
  t.AddDate 0 0 (1 - t.Weekday)

/-- Source `lastDayOfWeek` (main.go:118-120) in a location without zone transitions. -/
def lastDayOfWeek (t : Time) : Time :=
  (firstDayOfWeek t).AddDate 0 0 6

/-- Body of the inner loop of `printCal` (main.go:94-108) for one `week` and `weekday`. -/
def printCalDay (now first : Time) (week weekday : Nat) (output : List GoString) :
    Except Fault (List GoString) := do
  let day := first.AddDate 0 0 ((week : Int) * 7 + weekday)
  let output ←
    if day = firstDayOfWeek day then
      let last := lastDayOfWeek day
      if last.Day ≤ 7 then do
        let abbr ← slice (monthName last.Month) 0 3
        setAt output (week + 1) (color 1 abbr ++ utf8 " ")
      else
        setAt output (week + 1) (utf8 "    ")
    else pure output
  let cur ← getAt output (week + 1)
  if isToday now day then
    setAt output (week + 1) (cur ++ color 1 (fmtD2 day.Day ++ utf8 " "))
  else
    setAt output (week + 1) (cur ++ (fmtD2 day.Day ++ utf8 " "))

/-- Inner loop of `printCal` (main.go:93-109): `weekday` runs over 0..6. -/
def printCalWeek (now first : Time) (week : Nat) (output : List GoString) :
    Except Fault (List GoString) :=
  (List.range 7).foldlM (fun out weekday => printCalDay now first week weekday out) output

/-- Source `printCal` (main.go:84-112) with the constant `weeks` as a parameter, in a location
without zone transitions. -/
def printCalWith (now : Time) (weeks : Nat) : Except Fault (List GoString) := do
  let output := List.replicate (weeks + 1) []
  let firstDayOfCurrentWeek := firstDayOfWeek now
  let output ← setAt output 0 (color 1 (utf8 "    Mo Di Mi Do Fr Sa So "))
  (List.range weeks).foldlM (fun out week => printCalWeek now firstDayOfCurrentWeek week out)
    output

/-- Source `printCal` (main.go:84-112): `weeks := 14`. -/
def printCal (now : Time) : Except Fault (List GoString) :=
  printCalWith now 14

/-- Source `firstDayOfWeek` (main.go:114-116) for a time in the location `loc`. -/
def firstDayOfWeekIn (loc : Location) (t : Time) : Time :=
  t.AddDateIn loc 0 0 (1 - t.Weekday)

/-- Source `lastDayOfWeek` (main.go:118-120) for a time in the location `loc`. -/
def lastDayOfWeekIn (loc : Location) (t : Time) : Time :=
  (firstDayOfWeekIn loc t).AddDateIn loc 0 0 6

/-- Body of the inner loop of `printCal` (main.go:94-108) with the local location `loc`. -/
def printCalDayIn (loc : Location) (now first : Time) (week weekday : Nat)
    (output : List GoString) : Except Fault (List GoString) := do
  let day := first.AddDateIn loc 0 0 ((week : Int) * 7 + weekday)
  let output ←
    if day = firstDayOfWeekIn loc day then
      let last := lastDayOfWeekIn loc day
      if last.Day ≤ 7 then do
        let abbr ← slice (monthName last.Month) 0 3
        setAt output (week + 1) (color 1 abbr ++ utf8 " ")
      else
        setAt output (week + 1) (utf8 "    ")
    else pure output
  let cur ← getAt output (week + 1)
  if isToday now day then
    setAt output (week + 1) (cur ++ color 1 (fmtD2 day.Day ++ utf8 " "))
  else
    setAt output (week + 1) (cur ++ (fmtD2 day.Day ++ utf8 " "))

/-- Inner loop of `printCal` (main.go:93-109) with the local location `loc`. -/
def printCalWeekIn (loc : Location) (now first : Time) (week : Nat) (output : List GoString) :
    Except Fault (List GoString) :=
  (List.range 7).foldlM (fun out weekday => printCalDayIn loc now first week weekday out) output

/-- Source `printCal` (main.go:84-112) with the local location `loc` of `time.Now()`. -/
def printCalIn (loc : Location) (now : Time) : Except Fault (List GoString) := do
  let weeks := 14
  let output := List.replicate (weeks + 1) []
  let firstDayOfCurrentWeek := firstDayOfWeekIn loc now
  let output ← setAt output 0 (color 1 (utf8 "    Mo Di Mi Do Fr Sa So "))
  (List.range weeks).foldlM
    (fun out week => printCalWeekIn loc now firstDayOfCurrentWeek week out) output

/-- Go `calendar.EventDateTime`: the fields the program reads. -/
structure EventDateTime where
  Date : GoString
  DateTime : GoString
deriving DecidableEq, Repr

/-- Go `calendar.Event`: the fields the program reads (`Start` and `End` non-nil). -/
structure Event where
  Start : EventDateTime
  End : EventDateTime
  Status : GoString
  Summary : GoString
  Location : GoString
deriving DecidableEq, Repr

/-- The label line chosen in `entries` (main.go:163-171) for the date text `currentDate`; the
error of `time.Parse` is dropped there, which leaves the zero time. -/
def dateLabel (now : Time) (currentDate : GoString) : GoString :=
  let parsedDate := (parseDate currentDate).getD zeroTime
  if isToday now parsedDate then
    utf8 "Today, " ++ currentDate
  else if isTomorrow now parsedDate then
    utf8 "Tomorrow, " ++ currentDate
  else
    weekdayName parsedDate.Weekday ++ utf8 ", " ++ currentDate

/-- Body of the loop of `entries` (main.go:154-181) for one item; the state is the slice
`output` and the variable `lastDate`. -/
def entriesItem (now : Time) (st : List GoString × GoString) (item : Event) :
    Except Fault (List GoString × GoString) := do
  let date := if item.Start.DateTime = [] then item.Start.Date else item.Start.DateTime
  let startTime ← slice item.Start.DateTime 11 16
  let endTime ← slice item.End.DateTime 11 16
  let currentDate ← slice date 0 10
  let st :=
    if st.2 ≠ currentDate then (st.1 ++ [dateLabel now currentDate], currentDate) else st
  let timeStr := startTime ++ utf8 "-" ++ endTime
  let status ← slice item.Status 0 3
  let output :=
    st.1 ++ [color 1 timeStr ++ utf8 " [" ++ status ++ utf8 "] " ++ item.Summary]
  let output :=
    if item.Location.length > 0 then output ++ [utf8 "            @" ++ item.Location]
    else output
  pure (output, st.2)

/-- Source `entries` (main.go:147-182) on the fetched `events.Items`. -/
def entries (now : Time) (items : List Event) : Except Fault (List GoString) :=
  if items.length = 0 then
    .ok [utf8 "No upcoming events found."]
  else do
    let st ← items.foldlM (entriesItem now) ([], [])
    pure st.1

/-- Source `max` (main.go:185-190), on lengths. -/
def max (a b : Nat) : Nat :=
  if a > b then a else b

/-- Body of the loop of `main` (main.go:197-208) for index `i`: the text printed before the
newline of `Println` is appended to the printed lines `out`. -/
def mainStep (cal entries : List GoString) (out : List GoString) (i : Nat) :
    Except Fault (List GoString) := do
  let left ←
    if i < cal.length then do
      let line ← getAt cal i
      pure (line ++ utf8 "    ")
    else pure (utf8 "                             ")
  if i < entries.length then do
    let line ← getAt entries i
    pure (out ++ [left ++ stringsReplace line (utf8 "#") (utf8 "\\#") (by decide)])
  else pure (out ++ [left ++ utf8 ""])

/-- The loop of `main` (main.go:196-209) on the two line sequences: the printed lines. -/
def mainLoop (cal entries : List GoString) : Except Fault (List GoString) :=
  (List.range (GcalConky.max cal.length entries.length)).foldlM (mainStep cal entries) []

/-- Source `main` (main.go:192-210), with the clock reading and the fetched events passed
in. -/
def main (now : Time) (items : List Event) : Except Fault (List GoString) := do
  let cal ← printCal now
  let entries ← entries now items
  mainLoop cal entries

/-! ## Closed forms of the loops, used to state the results -/

/-- The date `printCal` computes for slot `weekday` of row `week` (main.go:94). -/
def gridDay (first : Time) (week weekday : Nat) : Time :=
  first.AddDate 0 0 ((week : Int) * 7 + weekday)

/-- The first three bytes of a month name, `Month().String()[0:3]` (main.go:98). -/
def monthAbbr (m : Int) : GoString :=
  (monthName m).take 3

/-- What `printCal` assigns to a row at its first slot (main.go:96-102). -/
def gridPrefix (first : Time) (week : Nat) : GoString :=
  let last := lastDayOfWeek (gridDay first week 0)
  if last.Day ≤ 7 then color 1 (monthAbbr last.Month) ++ utf8 " " else utf8 "    "

/-- What `printCal` appends to a row for the date `day` (main.go:104-108). -/
def gridCell (now day : Time) : GoString :=
  if isToday now day then color 1 (fmtD2 day.Day ++ utf8 " ") else fmtD2 day.Day ++ utf8 " "

/-- The seven cells of row `week`, in slot order. -/
def gridCells (now first : Time) (week : Nat) : List GoString :=
  (List.range 7).map fun weekday => gridCell now (gridDay first week weekday)

/-- Row `week` of the grid: its prefix followed by its seven cells. -/
def gridRow (now first : Time) (week : Nat) : GoString :=
  gridPrefix first week ++ (gridCells now first week).flatten

/-- The header line (main.go:91). -/
def gridHeader : GoString :=
  color 1 (utf8 "    Mo Di Mi Do Fr Sa So ")

/-- Scanner that drops conky markers: outside a marker (`false`) a `$` (byte 36) opens one,
inside a marker (`true`) everything up to the closing brace (byte 125) is dropped. -/
def stripMarkers : Bool → GoString → GoString
  | _, [] => []
  | true, c :: cs => if c = 125 then stripMarkers false cs else stripMarkers true cs
  | false, c :: cs => if c = 36 then stripMarkers true cs else c :: stripMarkers false cs

/-- The visible text of a line: the line without its color markers. -/
def visible (line : GoString) : GoString :=
  stripMarkers false line

/-- The visible text of a row prefix: four blanks, or the month abbreviation and a blank. -/
def prefixText (first : Time) (week : Nat) : GoString :=
  let last := lastDayOfWeek (gridDay first week 0)
  if last.Day ≤ 7 then monthAbbr last.Month ++ utf8 " " else utf8 "    "

/-- A well-formed timed record of the external interface: start and end date-time of at least
16 bytes (`YYYY-MM-DDTHH:MM`), status of at least 3 bytes. -/
def Event.wellFormed (e : Event) : Prop :=
  16 ≤ e.Start.DateTime.length ∧ 16 ≤ e.End.DateTime.length ∧ 3 ≤ e.Status.length

instance (e : Event) : Decidable e.wellFormed := by
  unfold Event.wellFormed
  infer_instance

/-- The calendar date text of a timed record, `date[0:10]` (main.go:162). -/
def eventDate (e : Event) : GoString :=
  e.Start.DateTime.take 10

/-- The event line of a record (main.go:159-160, 176-177). -/
def eventLine (e : Event) : GoString :=
  color 1 ((e.Start.DateTime.drop 11).take 5 ++ utf8 "-" ++ (e.End.DateTime.drop 11).take 5)
    ++ utf8 " [" ++ e.Status.take 3 ++ utf8 "] " ++ e.Summary

/-- The location line of a record, if it has a location (main.go:178-180). -/
def locationLines (e : Event) : List GoString :=
  if e.Location.length > 0 then [utf8 "            @" ++ e.Location] else []

/-- The lines the loop of `entries` emits for `items` when the previous record had the date
text `lastDate`: per record the label line if the date changes, the event line, the location
line. -/
def eventBlocks (now : Time) : GoString → List Event → List GoString
  | _, [] => []
  | lastDate, e :: es =>
    (if lastDate ≠ eventDate e then [dateLabel now (eventDate e)] else [])
      ++ [eventLine e] ++ locationLines e ++ eventBlocks now (eventDate e) es

/-- The day groups of a record list, in the words of the specification: the list is cut where
the calendar date changes; a group is a date text with the records that share it, in the order
received. -/
def dayGroups : List Event → List (GoString × List Event)
  | [] => []
  | e :: es =>
    match dayGroups es with
    | (d, g) :: gs =>
      if eventDate e = d then (d, e :: g) :: gs else (eventDate e, [e]) :: (d, g) :: gs
    | [] => [(eventDate e, [e])]

/-- The event output of a list of day groups, in the words of the specification: one label line
per group, followed by one or two lines per record of the group. -/
def renderGroups (now : Time) (gs : List (GoString × List Event)) : List GoString :=
  (gs.map fun g =>
    dateLabel now g.1 :: (g.2.map fun e => eventLine e :: locationLines e).flatten).flatten

/-- Number of label lines the loop of `entries` emits for records with the date texts `dates`
when the previous record had the date text `lastDate`. -/
def labelCount : GoString → List GoString → Nat
  | _, [] => 0
  | lastDate, d :: ds => (if lastDate ≠ d then 1 else 0) + labelCount d ds

/-- The order of Go strings: bytewise lexicographic. -/
def GoString.le (a b : GoString) : Prop :=
  a.map UInt8.toNat ≤ b.map UInt8.toNat

/-- The escaping of the compositor, byte by byte: `#` (byte 35) becomes a backslash (byte 92)
and `#`, every other byte stays. -/
def escapeHash (cs : GoString) : GoString :=
  cs.flatMap fun c => if c = 35 then [92, 35] else [c]

/-- The left part of combined line `i`, in the words of the specification: the left line and the
separator of 4 blanks if the left line is present, else the blank filler. -/
def leftPart (left : List GoString) (i : Nat) : GoString :=
  match left.get? i with
  | some line => line ++ utf8 "    "
  | none => List.replicate 29 32

/-- The right part of combined line `i`, in the words of the specification: the right line with
`#` escaped if present, else the empty string. -/
def rightPart (right : List GoString) (i : Nat) : GoString :=
  match right.get? i with
  | some line => escapeHash line
  | none => []

/-- Sample record: 2024-01-10, 09:00-10:00, confirmed, `Standup`, no location. -/
def sampleStandup : Event :=
  ⟨⟨[], utf8 "2024-01-10T09:00:00+01:00"⟩, ⟨[], utf8 "2024-01-10T10:00:00+01:00"⟩,
    utf8 "confirmed", utf8 "Standup", []⟩

/-- Sample record: 2024-01-10, 14:00-15:00, confirmed, `Review`, at `Room 2`. -/
def sampleReview : Event :=
  ⟨⟨[], utf8 "2024-01-10T14:00:00+01:00"⟩, ⟨[], utf8 "2024-01-10T15:00:00+01:00"⟩,
    utf8 "confirmed", utf8 "Review", utf8 "Room 2"⟩

/-- Sample clock reading: 2024-01-10 (a Wednesday, day number 738894), 12:00. -/
def sampleNow : Time := ⟨738894, 43200⟩

/-- Sample all-day record: 2024-01-10, date-only start and end, no date-time. -/
def sampleAllDay : Event :=
  ⟨⟨utf8 "2024-01-10", []⟩, ⟨utf8 "2024-01-11", []⟩, utf8 "confirmed", utf8 "Holiday", []⟩

/-- Sample record with a start date-time of 15 bytes, one short of `HH:MM`. -/
def sampleShort : Event :=
  ⟨⟨[], utf8 "2024-01-10T09:0"⟩, ⟨[], utf8 "2024-01-10T10:00:00+01:00"⟩, utf8 "confirmed",
    utf8 "Standup", []⟩

/-- Sample record whose summary contains `#`. -/
def sampleHash : Event :=
  ⟨⟨[], utf8 "2024-01-10T09:00:00+01:00"⟩, ⟨[], utf8 "2024-01-10T10:00:00+01:00"⟩,
    utf8 "confirmed", utf8 "Issue #42", []⟩

/-- Sample record with the status text `éab`: 3 characters, 4 bytes. -/
def sampleAccent : Event :=
  ⟨⟨[], utf8 "2024-01-10T09:00:00+01:00"⟩, ⟨[], utf8 "2024-01-10T10:00:00+01:00"⟩,
    utf8 "éab", utf8 "Standup", []⟩

/-- Sample record with the start date-time text `2024-01-10T09:é`: 15 characters, 16 bytes. -/
def sampleWide : Event :=
  ⟨⟨[], utf8 "2024-01-10T09:é"⟩, ⟨[], utf8 "2024-01-10T10:00:00+01:00"⟩, utf8 "confirmed",
    utf8 "Standup", []⟩

/-- Sample clock reading in America/Santiago: Monday 2024-09-02 (day number 739130), 00:30. -/
def sampleSantiagoNow : Time := ⟨739130, 1800⟩

/-- The date `printCal` computes for slot `weekday` of row `week` (main.go:94) in the location
`loc`. -/
def gridDayIn (loc : Location) (first : Time) (week weekday : Nat) : Time :=
  first.AddDateIn loc 0 0 ((week : Int) * 7 + weekday)

/-- Equality of two results of the grid builder or the event loop is decidable. -/
instance : DecidableEq (Except Fault (List GoString)) := fun a b =>
  match a, b with
  | .ok x, .ok y => if h : x = y then isTrue (by rw [h]) else isFalse (fun e => h (Except.ok.inj e))
  | .error x, .error y =>
    if h : x = y then isTrue (by rw [h]) else isFalse (fun e => h (Except.error.inj e))
  | .ok _, .error _ => isFalse (fun e => by cases e)
  | .error _, .ok _ => isFalse (fun e => by cases e)

/-! ## The calendar of the `time` model -/

theorem isLeap_iff (y : Int) :
    isLeap y = true ↔ (y % 4 = 0 ∧ (y % 100 ≠ 0 ∨ y % 400 = 0)) := by
  simp [isLeap]

/-- Days before a year written by its position in the 400-, 100- and 4-year cycles. -/
theorem daysSinceEpoch_cycles (a b c e : Int) (hb : 0 ≤ b ∧ b ≤ 3) (hc : 0 ≤ c ∧ c ≤ 24)
    (he : 0 ≤ e ∧ e ≤ 3) :
    daysSinceEpoch (400 * a + 100 * b + 4 * c + e + 1)
      = 146097 * a + 36524 * b + 1461 * c + 365 * e := by
  simp only [daysSinceEpoch]
  have e1 : (400 * a + 100 * b + 4 * c + e + 1 - 1) / 400 = a := by omega
  rw [e1]
  have e2 : (400 * a + 100 * b + 4 * c + e + 1 - 1 - 400 * a) / 100 = b := by omega
  rw [e2]
  have e3 : (400 * a + 100 * b + 4 * c + e + 1 - 1 - 400 * a - 100 * b) / 4 = c := by omega
  rw [e3]
  omega

theorem isLeap_cycles (a b c e : Int) (hb : 0 ≤ b ∧ b ≤ 3) (hc : 0 ≤ c ∧ c ≤ 24)
    (he : 0 ≤ e ∧ e ≤ 3) :
    isLeap (400 * a + 100 * b + 4 * c + e + 1) = true ↔ (e = 3 ∧ (c ≠ 24 ∨ b = 3)) := by
  rw [isLeap_iff]
  omega

theorem year_cycles (y : Int) : ∃ a b c e : Int, (0 ≤ b ∧ b ≤ 3) ∧ (0 ≤ c ∧ c ≤ 24) ∧
    (0 ≤ e ∧ e ≤ 3) ∧ y = 400 * a + 100 * b + 4 * c + e + 1 := by
  refine ⟨(y - 1) / 400, (y - 1) % 400 / 100, (y - 1) % 100 / 4, (y - 1) % 4, ?_, ?_, ?_, ?_⟩
  all_goals omega

theorem yearDay_cycles (z : Int) : ∃ a b c e d : Int, (0 ≤ b ∧ b ≤ 3) ∧ (0 ≤ c ∧ c ≤ 24) ∧
    (0 ≤ e ∧ e ≤ 3) ∧ yearDay z = (400 * a + 100 * b + 4 * c + e + 1, d) ∧
    z = 146097 * a + 36524 * b + 1461 * c + 365 * e + d ∧
    0 ≤ d ∧ d ≤ 365 ∧ (d = 365 → e = 3 ∧ (c ≠ 24 ∨ b = 3)) := by
  refine ⟨z / 146097, _, _, _, _, ?_, ?_, ?_, rfl, ?_, ?_, ?_, ?_⟩
  all_goals omega

/-- The year and day of the year of a day number add up to it, and the day lies in the year. -/
theorem yearDay_spec (z : Int) :
    daysSinceEpoch (yearDay z).1 + (yearDay z).2 = z ∧ 0 ≤ (yearDay z).2 ∧
      (yearDay z).2 < 365 + (if isLeap (yearDay z).1 = true then 1 else 0) := by
  obtain ⟨a, b, c, e, d, hb, hc, he, h, hz, hd0, hd1, hd2⟩ := yearDay_cycles z
  rw [h]
  simp only
  rw [daysSinceEpoch_cycles a b c e hb hc he]
  refine ⟨by omega, hd0, ?_⟩
  have hl := isLeap_cycles a b c e hb hc he
  split_ifs with hleap
  · omega
  · have : ¬ (e = 3 ∧ (c ≠ 24 ∨ b = 3)) := fun h => hleap (hl.2 h)
    omega

/-- A day of a year is decoded to that year and day. -/
theorem yearDay_daysSinceEpoch (y d : Int) (h0 : 0 ≤ d)
    (h1 : d < 365 + (if isLeap y = true then 1 else 0)) :
    yearDay (daysSinceEpoch y + d) = (y, d) := by
  obtain ⟨a, b, c, e, hb, hc, he, rfl⟩ := year_cycles y
  have hl := isLeap_cycles a b c e hb hc he
  rw [daysSinceEpoch_cycles a b c e hb hc he]
  have hd : d ≤ 365 ∧ (d = 365 → e = 3 ∧ (c ≠ 24 ∨ b = 3)) := by
    split_ifs at h1 with hleap
    · exact ⟨by omega, fun _ => hl.1 hleap⟩
    · exact ⟨by omega, fun h => by omega⟩
  generalize hz : 146097 * a + 36524 * b + 1461 * c + 365 * e + d = z
  simp only [yearDay]
  have e1 : z / 146097 = a := by omega
  rw [e1]
  have r1 : z - 146097 * a = 36524 * b + 1461 * c + 365 * e + d := by omega
  rw [r1]
  clear e1 r1 hz z
  generalize hz : 36524 * b + 1461 * c + 365 * e + d = z
  have e2 : z / 36524 - z / 36524 / 4 = b := by
    have h3 : b = 3 ∨ b ≤ 2 := by omega
    rcases h3 with h3 | h3
    · have : z / 36524 = 3 ∨ z / 36524 = 4 := by omega
      omega
    · have : z / 36524 = b := by omega
      omega
  rw [e2]
  have r2 : z - 36524 * b = 1461 * c + 365 * e + d := by omega
  rw [r2]
  clear e2 r2 hz z
  generalize hz : 1461 * c + 365 * e + d = z
  have e3 : z / 1461 = c := by omega
  rw [e3]
  have r3 : z - 1461 * c = 365 * e + d := by omega
  rw [r3]
  clear e3 r3 hz z
  generalize hz : 365 * e + d = z
  have e4 : z / 365 - z / 365 / 4 = e := by
    have h3 : e = 3 ∨ e ≤ 2 := by omega
    rcases h3 with h3 | h3
    · have : z / 365 = 3 ∨ z / 365 = 4 := by omega
      omega
    · have : z / 365 = e := by omega
      omega
  rw [e4]
  refine Prod.ext rfl ?_
  simp only
  omega

set_option maxRecDepth 100000 in
theorem monthDay_table (leap : Bool) :
    ∀ k : Nat, k < 365 + (if leap = true then 1 else 0) →
      1 ≤ (monthDay leap k).1 ∧ (monthDay leap k).1 ≤ 12 ∧ 1 ≤ (monthDay leap k).2 ∧
      (monthDay leap k).2 ≤ (if (monthDay leap k).1 = 2 ∧ leap = true then 29
        else daysBefore (monthDay leap k).1 - daysBefore ((monthDay leap k).1 - 1)) ∧
      ydayOf leap (monthDay leap k).1 (monthDay leap k).2 = k := by
  cases leap <;> decide!

set_option maxRecDepth 100000 in
theorem ydayOf_table (leap : Bool) :
    ∀ m : Nat, m < 13 → ∀ d : Nat, d < 32 →
      (1 ≤ m ∧ 1 ≤ d ∧ (d : Int) ≤ (if (m : Int) = 2 ∧ leap = true then 29
        else daysBefore m - daysBefore ((m : Int) - 1))) →
      (0 ≤ ydayOf leap m d ∧ ydayOf leap m d < 365 + (if leap = true then 1 else 0)) ∧
      monthDay leap (ydayOf leap m d) = ((m : Int), (d : Int)) := by
  cases leap <;> decide!

/-- Calendar fields of a day number: the month is in 1..12, the day in 1..`daysIn`, and `Date`
maps the fields back to the day number. -/
theorem absDate_spec (z : Int) :
    1 ≤ (absDate z).2.1 ∧ (absDate z).2.1 ≤ 12 ∧ 1 ≤ (absDate z).2.2 ∧
      (absDate z).2.2 ≤ daysIn (absDate z).2.1 (absDate z).1 ∧
      daysSinceEpoch (absDate z).1
        + ydayOf (isLeap (absDate z).1) (absDate z).2.1 (absDate z).2.2 = z := by
  obtain ⟨h1, h2, h3⟩ := yearDay_spec z
  simp only [absDate, daysIn]
  generalize (yearDay z).1 = y at *
  generalize (yearDay z).2 = yd at *
  lift yd to ℕ using h2
  have h3n : yd < 365 + (if isLeap y = true then 1 else 0) := by
    split_ifs at h3 ⊢ <;> omega
  obtain ⟨a1, a2, a3, a4, a5⟩ := monthDay_table (isLeap y) yd h3n
  refine ⟨a1, a2, a3, a4, ?_⟩
  rw [a5]
  exact h1

/-- A valid calendar date is decoded from its day number. -/
theorem absDate_of_valid (y m d : Int) (hm : 1 ≤ m ∧ m ≤ 12) (hd : 1 ≤ d ∧ d ≤ daysIn m y) :
    absDate (daysSinceEpoch y + ydayOf (isLeap y) m d) = (y, m, d) := by
  obtain ⟨hm1, hm2⟩ := hm
  obtain ⟨hd1, hd2⟩ := hd
  lift m to ℕ using (by omega)
  lift d to ℕ using (by omega)
  have hd31 : d < 32 := by
    have : daysIn m y ≤ 31 := by
      have hm13 : m < 13 := by omega
      simp only [daysIn]
      split_ifs
      · omega
      · interval_cases m <;> decide
    omega
  simp only [daysIn] at hd2
  obtain ⟨⟨b1, b2⟩, b3⟩ := ydayOf_table (isLeap y) m (by omega) d hd31
    ⟨by omega, by omega, hd2⟩
  simp only [absDate]
  rw [yearDay_daysSinceEpoch y _ b1 b2]
  simp only [b3]

theorem absDate_day_le (z : Int) : (absDate z).2.2 ≤ 31 := by
  obtain ⟨h1, h2, _, h4, _⟩ := absDate_spec z
  generalize (absDate z).2.1 = m at *
  generalize (absDate z).2.2 = d at *
  lift m to ℕ using (by omega)
  have hm13 : m < 13 := by omega
  have : daysIn m (absDate z).1 ≤ 31 := by
    simp only [daysIn]
    split_ifs
    · omega
    · interval_cases m <;> decide
  omega

/-- On a month in 1..12 `Date` adds the day offset to the day number of the first of the month. -/
theorem Date_abs (y m d : Int) (c : Nat) (hm : 1 ≤ m ∧ m ≤ 12) :
    Date y m d c = ⟨daysSinceEpoch y + ydayOf (isLeap y) m d, c⟩ := by
  have e1 : (m - 1) / 12 = 0 := by omega
  have e2 : (m - 1) % 12 + 1 = m := by omega
  simp only [Date, e1, e2, add_zero]

/-- Adding `n` days moves the day number by `n` and keeps the clock. -/
theorem AddDate_days (t : Time) (n : Int) : t.AddDate 0 0 n = ⟨t.abs + n, t.clock⟩ := by
  obtain ⟨h1, h2, _, _, h5⟩ := absDate_spec t.abs
  simp only [Time.AddDate, Time.Year, Time.Month, Time.Day, add_zero]
  rw [Date_abs _ _ _ _ ⟨h1, h2⟩]
  simp only [ydayOf] at h5 ⊢
  congr 1
  omega

/-- Two day numbers with the same year, month and day are equal. -/
theorem absDate_injective (z w : Int) (h : absDate z = absDate w) : z = w := by
  have hz := (absDate_spec z).2.2.2.2
  have hw := (absDate_spec w).2.2.2.2
  rw [h] at hz
  omega

/-- Going back fewer days than the day of the month stays in the month. -/
theorem absDate_sub (z i : Int) (h0 : 0 ≤ i) (h1 : i < (absDate z).2.2) :
    absDate (z - i) = ((absDate z).1, (absDate z).2.1, (absDate z).2.2 - i) := by
  obtain ⟨a1, a2, a3, a4, a5⟩ := absDate_spec z
  have h := absDate_of_valid (absDate z).1 (absDate z).2.1 ((absDate z).2.2 - i) ⟨a1, a2⟩
    ⟨by omega, by omega⟩
  rw [← h]
  congr 1
  simp only [ydayOf] at a5 ⊢
  omega


/-! ## The grid loop -/

theorem setAt_ok (xs : List GoString) (i : Nat) (v : GoString) (h : i < xs.length) :
    setAt xs i v = .ok (xs.set i v) := by
  simp [setAt, h]

theorem getAt_set (xs : List GoString) (i : Nat) (v : GoString) (h : i < xs.length) :
    getAt (xs.set i v) i = .ok v := by
  simp [getAt, List.getElem?_set, h]

theorem getAt_ok (xs : List GoString) (i : Nat) (v : GoString) (h : xs.get? i = some v) :
    getAt xs i = .ok v := by
  unfold getAt
  rw [h]

theorem setAt_set (xs : List GoString) (i : Nat) (v w : GoString) (h : i < xs.length) :
    setAt (xs.set i v) i w = .ok (xs.set i w) := by
  rw [setAt_ok _ _ _ (by simpa using h), List.set_set]

theorem slice_monthName (m : Int) (hm : 1 ≤ m ∧ m ≤ 12) :
    slice (monthName m) 0 3 = .ok (monthAbbr m) := by
  obtain ⟨h1, h2⟩ := hm
  lift m to ℕ using (by omega)
  have : m < 13 := by omega
  interval_cases m <;> rfl

theorem gridDay_eq (first : Time) (week weekday : Nat) :
    gridDay first week weekday = ⟨first.abs + 7 * week + weekday, first.clock⟩ := by
  simp only [gridDay, AddDate_days]
  congr 1
  omega

theorem firstDayOfWeek_eq (t : Time) :
    firstDayOfWeek t = ⟨t.abs + 1 - (t.abs + 1) % 7, t.clock⟩ := by
  simp only [firstDayOfWeek, AddDate_days, Time.Weekday]
  congr 1
  omega

/-- The result of `firstDayOfWeek` is a Monday (weekday 1), whatever the argument. -/
theorem firstDayOfWeek_weekday (t : Time) : (firstDayOfWeek t).Weekday = 1 := by
  simp only [firstDayOfWeek_eq, Time.Weekday]
  omega

theorem gridDay_weekday (first : Time) (hmon : first.Weekday = 1) (week weekday : Nat) :
    (gridDay first week weekday).Weekday = (1 + weekday) % 7 := by
  simp only [gridDay_eq, Time.Weekday] at hmon ⊢
  omega

/-- In a grid that starts on a Monday the test `day == firstDayOfWeek(day)` holds at slot 0 of
a row and at no other slot. -/
theorem gridDay_isFirst (first : Time) (hmon : first.Weekday = 1) (week weekday : Nat)
    (hk : weekday < 7) :
    gridDay first week weekday = firstDayOfWeek (gridDay first week weekday) ↔ weekday = 0 := by
  have hw := gridDay_weekday first hmon week weekday
  rw [firstDayOfWeek_eq]
  simp only [Time.Weekday] at hw
  generalize gridDay first week weekday = d at *
  constructor
  · intro h
    have h2 := congrArg Time.abs h
    simp only at h2
    omega
  · intro h
    cases d with
    | mk a c =>
      simp only at hw ⊢
      congr 1
      omega

theorem printCalDay_zero (now first : Time) (hmon : first.Weekday = 1) (week : Nat)
    (output : List GoString) (hi : week + 1 < output.length) :
    printCalDay now first week 0 output
      = .ok (output.set (week + 1)
          (gridPrefix first week ++ gridCell now (gridDay first week 0))) := by
  have hfirst := (gridDay_isFirst first hmon week 0 (by decide)).2 rfl
  have hm := absDate_spec (lastDayOfWeek (gridDay first week 0)).abs
  have hsl := slice_monthName (lastDayOfWeek (gridDay first week 0)).Month ⟨hm.1, hm.2.1⟩
  simp only [gridDay, Nat.cast_zero, add_zero] at hfirst hsl
  simp only [printCalDay, gridPrefix, gridCell, gridDay, Nat.cast_zero, add_zero]
  rw [if_pos hfirst]
  by_cases hl : (lastDayOfWeek (first.AddDate 0 0 ((week : Int) * 7))).Day ≤ 7
  · simp only [if_pos hl, hsl, bind, Except.bind, setAt_ok _ _ _ hi,
      getAt_set _ _ _ hi, setAt_set _ _ _ _ hi]
    split_ifs <;> rfl
  · simp only [if_neg hl, bind, Except.bind, setAt_ok _ _ _ hi,
      getAt_set _ _ _ hi, setAt_set _ _ _ _ hi]
    split_ifs <;> rfl

theorem printCalDay_succ (now first : Time) (hmon : first.Weekday = 1) (week weekday : Nat)
    (hk : weekday < 7) (hk0 : weekday ≠ 0) (output : List GoString) (cur : GoString)
    (hi : week + 1 < output.length) (hcur : output.get? (week + 1) = some cur) :
    printCalDay now first week weekday output
      = .ok (output.set (week + 1) (cur ++ gridCell now (gridDay first week weekday))) := by
  have hfirst := mt (gridDay_isFirst first hmon week weekday hk).1 hk0
  simp only [gridDay] at hfirst
  simp only [printCalDay, gridCell, gridDay]
  rw [if_neg hfirst]
  simp only [bind, Except.bind, pure, Except.pure, getAt_ok _ _ _ hcur, setAt_ok _ _ _ hi]
  split_ifs <;> rfl

theorem flatten_snoc (l : List GoString) (c : GoString) :
    (l ++ [c]).flatten = l.flatten ++ c := by
  simp

theorem printCalWeek_upTo (now first : Time) (hmon : first.Weekday = 1) (week : Nat)
    (output : List GoString) (hi : week + 1 < output.length) (k : Nat) (hk : k < 7) :
    (List.range (k + 1)).foldlM (fun out weekday => printCalDay now first week weekday out) output
      = .ok (output.set (week + 1) (gridPrefix first week ++
          ((List.range (k + 1)).map fun weekday =>
            gridCell now (gridDay first week weekday)).flatten)) := by
  induction k with
  | zero =>
    have hr : List.range 1 = [0] := by decide
    simp only [zero_add, hr, List.foldlM_cons, List.foldlM_nil, List.map_cons,
      List.map_nil]
    rw [printCalDay_zero now first hmon week output hi]
    simp [bind, Except.bind, pure, Except.pure]
  | succ k ih =>
    rw [List.range_succ, List.foldlM_append, ih (by omega)]
    simp only [bind, Except.bind, List.foldlM_cons, List.foldlM_nil, List.map_append,
      List.map_cons, List.map_nil, flatten_snoc]
    rw [printCalDay_succ now first hmon week (k + 1) hk (by omega) _
      (gridPrefix first week ++
            (List.map (fun weekday => gridCell now (gridDay first week weekday))
              (List.range (k + 1))).flatten) (by simpa using hi)
      (by simp [hi]), List.set_set, List.append_assoc]
    rfl

theorem printCalWeek_eq (now first : Time) (hmon : first.Weekday = 1) (week : Nat)
    (output : List GoString) (hi : week + 1 < output.length) :
    printCalWeek now first week output = .ok (output.set (week + 1) (gridRow now first week)) :=
  printCalWeek_upTo now first hmon week output hi 6 (by decide)

theorem printCalWeeks_eq (now first : Time) (hmon : first.Weekday = 1) (rest : Nat) (n : Nat) :
    (List.range n).foldlM (fun out week => printCalWeek now first week out)
        (gridHeader :: List.replicate (n + rest) [])
      = .ok (gridHeader :: ((List.range n).map (gridRow now first) ++ List.replicate rest [])) := by
  induction n generalizing rest with
  | zero => simp [pure, Except.pure]
  | succ n ih =>
    have h := ih (rest + 1)
    rw [show n + (rest + 1) = n + 1 + rest by omega] at h
    rw [List.range_succ, List.foldlM_append, h]
    simp only [bind, Except.bind, List.foldlM_cons, List.foldlM_nil]
    rw [printCalWeek_eq now first hmon n _ (by simp)]
    simp only [pure, Except.pure, List.map_append, List.map_cons, List.map_nil]
    congr 1
    rw [List.set_cons_succ, List.replicate_succ]
    congr 1
    rw [List.set_append_right _ _ (by simp)]
    simp

/-- The grid in closed form: the header, then one row per week. -/
theorem printCalWith_eq (now : Time) (weeks : Nat) :
    printCalWith now weeks
      = .ok (gridHeader :: (List.range weeks).map (gridRow now (firstDayOfWeek now))) := by
  simp only [printCalWith, setAt_ok _ _ _ (show 0 < (List.replicate (weeks + 1) ([] : GoString)).length by simp),
    bind, Except.bind]
  have h := printCalWeeks_eq now (firstDayOfWeek now) (firstDayOfWeek_weekday now) 0 weeks
  simp only [add_zero, List.replicate_zero, List.append_nil] at h
  rw [← h]
  rfl

theorem daysIn_ge (m y : Int) (hm : 1 ≤ m ∧ m ≤ 12) : 28 ≤ daysIn m y := by
  obtain ⟨h1, h2⟩ := hm
  lift m to ℕ using (by omega)
  have hm13 : m < 13 := by omega
  have hm1 : 1 ≤ m := by omega
  simp only [daysIn]
  split_ifs
  · omega
  · interval_cases m <;> decide

/-- Going forward from the first of a month by at most 27 days stays in the month. -/
theorem absDate_add (z i : Int) (hz : (absDate z).2.2 = 1) (h0 : 0 ≤ i) (h1 : i ≤ 27) :
    absDate (z + i) = ((absDate z).1, (absDate z).2.1, 1 + i) := by
  obtain ⟨a1, a2, a3, a4, a5⟩ := absDate_spec z
  have hge := daysIn_ge (absDate z).2.1 (absDate z).1 ⟨a1, a2⟩
  have h := absDate_of_valid (absDate z).1 (absDate z).2.1 (1 + i) ⟨a1, a2⟩
    ⟨by omega, by omega⟩
  rw [← h]
  congr 1
  rw [hz] at a5
  simp only [ydayOf] at a5 ⊢
  omega

theorem lastDayOfWeek_gridDay (first : Time) (hmon : first.Weekday = 1) (week : Nat) :
    lastDayOfWeek (gridDay first week 0) = ⟨first.abs + 7 * week + 6, first.clock⟩ := by
  have h := (gridDay_isFirst first hmon week 0 (by decide)).2 rfl
  rw [lastDayOfWeek, ← h, AddDate_days, gridDay_eq]
  simp

/-- The row prefix names the month whose first day lies in the row. -/
theorem gridPrefix_of_first (first : Time) (hmon : first.Weekday = 1) (week weekday : Nat)
    (hk : weekday < 7) (h1 : (gridDay first week weekday).Day = 1) :
    gridPrefix first week
      = color 1 (monthAbbr (gridDay first week weekday).Month) ++ utf8 " " := by
  have hadd := absDate_add (gridDay first week weekday).abs (6 - weekday) h1 (by omega) (by omega)
  have hlast : (lastDayOfWeek (gridDay first week 0)).abs
      = (gridDay first week weekday).abs + (6 - weekday) := by
    rw [lastDayOfWeek_gridDay first hmon, gridDay_eq]
    simp only
    omega
  simp only [gridPrefix, Time.Day, Time.Month, hlast, hadd]
  rw [if_pos (by omega)]

/-- A row without a first of a month has the blank prefix. -/
theorem gridPrefix_of_no_first (first : Time) (hmon : first.Weekday = 1) (week : Nat)
    (h : ∀ weekday, weekday < 7 → (gridDay first week weekday).Day ≠ 1) :
    gridPrefix first week = utf8 "    " := by
  simp only [gridPrefix]
  rw [if_neg]
  intro hle
  have hl := lastDayOfWeek_gridDay first hmon week
  generalize lastDayOfWeek (gridDay first week 0) = last at hl hle
  have h1 := (absDate_spec last.abs).2.2.1
  simp only [Time.Day] at hle
  have hsub := absDate_sub last.abs ((absDate last.abs).2.2 - 1) (by omega) (by omega)
  obtain ⟨k, hk⟩ : ∃ k : Nat, (k : Int) = 7 - (absDate last.abs).2.2 :=
    ⟨(7 - (absDate last.abs).2.2).toNat, by omega⟩
  apply h k (by omega)
  have e : (gridDay first week k).abs = last.abs - ((absDate last.abs).2.2 - 1) := by
    have hlabs : last.abs = first.abs + 7 * week + 6 := by rw [hl]
    rw [gridDay_eq]
    simp only
    omega
  simp only [Time.Day, e, hsub]
  omega

/-- A row holds at most one first of a month. -/
theorem gridDay_first_unique (first : Time) (week k j : Nat) (hk : k < 7) (hj : j < 7)
    (h1 : (gridDay first week k).Day = 1) (h2 : (gridDay first week j).Day = 1) : k = j := by
  by_contra hne
  rcases Nat.lt_or_gt_of_ne hne with hlt | hlt
  · have hadd := absDate_add (gridDay first week k).abs (j - k) h1 (by omega) (by omega)
    have e : (gridDay first week j).abs = (gridDay first week k).abs + (j - k) := by
      simp only [gridDay_eq]
      omega
    simp only [Time.Day, e, hadd] at h2
    omega
  · have hadd := absDate_add (gridDay first week j).abs (k - j) h2 (by omega) (by omega)
    have e : (gridDay first week k).abs = (gridDay first week j).abs + (k - j) := by
      simp only [gridDay_eq]
      omega
    simp only [Time.Day, e, hadd] at h1
    omega

/-! ## The grid loop in a location -/

theorem DateIn_utc (year month day : Int) (clock : Nat) (hc : clock < 86400) :
    DateIn Location.utc year month day clock = Date year month day clock := by
  simp only [DateIn, Location.utc, Location.wall, ne_eq, not_true_eq_false, if_false, add_zero]
  have h1 : ((Date year month day clock).abs * 86400 + (clock : Int)) / 86400
      = (Date year month day clock).abs := by
    have : (Date year month day clock).clock = clock := rfl
    omega
  have h2 : (((Date year month day clock).abs * 86400 + (clock : Int)) % 86400).toNat
      = clock := by
    omega
  have hclock : (Date year month day clock).clock = clock := rfl
  rw [hclock, h1, h2]
  rfl

theorem AddDateIn_utc (t : Time) (years months days : Int) (hc : t.clock < 86400) :
    t.AddDateIn Location.utc years months days = t.AddDate years months days :=
  DateIn_utc _ _ _ _ hc

theorem AddDate_clock (t : Time) (years months days : Int) :
    (t.AddDate years months days).clock = t.clock := rfl

theorem printCalDayIn_utc (now first : Time) (hc : first.clock < 86400) (week weekday : Nat)
    (output : List GoString) :
    printCalDayIn Location.utc now first week weekday output
      = printCalDay now first week weekday output := by
  have e1 : first.AddDateIn Location.utc 0 0 ((week : Int) * 7 + weekday)
      = first.AddDate 0 0 ((week : Int) * 7 + weekday) := AddDateIn_utc _ _ _ _ hc
  have e2 : ∀ t : Time, t.clock < 86400 →
      firstDayOfWeekIn Location.utc t = firstDayOfWeek t :=
    fun t ht => AddDateIn_utc _ _ _ _ ht
  have e3 : ∀ t : Time, t.clock < 86400 →
      lastDayOfWeekIn Location.utc t = lastDayOfWeek t := by
    intro t ht
    rw [lastDayOfWeekIn, e2 t ht, lastDayOfWeek]
    exact AddDateIn_utc _ _ _ _ ht
  have hd : (first.AddDate 0 0 ((week : Int) * 7 + weekday)).clock < 86400 := hc
  simp only [printCalDayIn, printCalDay, e1, e2 _ hd, e3 _ hd]

/-- In the location UTC, which has no zone transitions, `printCalIn` is `printCal`. -/
theorem printCalIn_utc (now : Time) (hc : now.clock < 86400) :
    printCalIn Location.utc now = printCal now := by
  have e : firstDayOfWeekIn Location.utc now = firstDayOfWeek now :=
    AddDateIn_utc _ _ _ _ hc
  have hf : (firstDayOfWeek now).clock < 86400 := hc
  have hw : ∀ week, printCalWeekIn Location.utc now (firstDayOfWeek now) week
      = printCalWeek now (firstDayOfWeek now) week := by
    intro week
    funext output
    simp only [printCalWeekIn, printCalWeek, printCalDayIn_utc now _ hf]
  simp only [printCalIn, printCal, printCalWith, e, hw]

theorem printCalDayIn_shape (loc : Location) (now first : Time) (week weekday : Nat)
    (output : List GoString) (hi : week + 1 < output.length) :
    ∃ v, printCalDayIn loc now first week weekday output = .ok (output.set (week + 1) v) := by
  obtain ⟨cur, hcur⟩ : ∃ cur, output.get? (week + 1) = some cur := ⟨_, List.get?_eq_get hi⟩
  simp only [printCalDayIn]
  generalize first.AddDateIn loc 0 0 ((week : Int) * 7 + weekday) = day
  have hm := absDate_spec (lastDayOfWeekIn loc day).abs
  have hsl := slice_monthName (lastDayOfWeekIn loc day).Month ⟨hm.1, hm.2.1⟩
  by_cases hfirst : day = firstDayOfWeekIn loc day
  · rw [if_pos hfirst]
    by_cases hl : (lastDayOfWeekIn loc day).Day ≤ 7
    · simp only [if_pos hl, hsl, bind, Except.bind, setAt_ok _ _ _ hi,
        getAt_set _ _ _ hi, setAt_set _ _ _ _ hi]
      split_ifs <;> exact ⟨_, rfl⟩
    · simp only [if_neg hl, bind, Except.bind, setAt_ok _ _ _ hi,
        getAt_set _ _ _ hi, setAt_set _ _ _ _ hi]
      split_ifs <;> exact ⟨_, rfl⟩
  · rw [if_neg hfirst]
    simp only [bind, Except.bind, pure, Except.pure, getAt_ok _ _ _ hcur, setAt_ok _ _ _ hi]
    split_ifs <;> exact ⟨_, rfl⟩

theorem printCalWeekIn_shape (loc : Location) (now first : Time) (week : Nat)
    (output : List GoString) (hi : week + 1 < output.length) :
    ∃ v, printCalWeekIn loc now first week output = .ok (output.set (week + 1) v) := by
  have h : ∀ k : Nat, ∃ v, (List.range (k + 1)).foldlM
      (fun out weekday => printCalDayIn loc now first week weekday out) output
        = .ok (output.set (week + 1) v) := by
    intro k
    induction k with
    | zero =>
      obtain ⟨v, hv⟩ := printCalDayIn_shape loc now first week 0 output hi
      have hr : List.range 1 = [0] := by decide
      exact ⟨v, by simp [hr, hv, bind, Except.bind, pure, Except.pure]⟩
    | succ k ih =>
      obtain ⟨v, hv⟩ := ih
      obtain ⟨w, hw⟩ := printCalDayIn_shape loc now first week (k + 1)
        (output.set (week + 1) v) (by simpa using hi)
      refine ⟨w, ?_⟩
      rw [List.range_succ, List.foldlM_append, hv]
      simp only [bind, Except.bind, List.foldlM_cons, List.foldlM_nil, hw, List.set_set, pure,
        Except.pure]
  exact h 6

/-- In every location `printCal` returns the header and 14 rows: no write to `output[week+1]`
and no `Month().String()[0:3]` is out of bounds, whatever `time.Date` resolves the dates to. -/
theorem printCalIn_total (loc : Location) (now : Time) :
    ∃ rows, printCalIn loc now = .ok (gridHeader :: rows) ∧ rows.length = 14 := by
  have h : ∀ n : Nat, n ≤ 14 → ∃ rows, (List.range n).foldlM
      (fun out week => printCalWeekIn loc now (firstDayOfWeekIn loc now) week out)
      (gridHeader :: List.replicate 14 []) = .ok (gridHeader :: rows) ∧ rows.length = 14 := by
    intro n
    induction n with
    | zero =>
      intro _
      exact ⟨List.replicate 14 [], rfl, rfl⟩
    | succ n ih =>
      intro hn
      obtain ⟨rows, hr, hl⟩ := ih (by omega)
      obtain ⟨v, hv⟩ := printCalWeekIn_shape loc now (firstDayOfWeekIn loc now) n
        (gridHeader :: rows) (by simp only [List.length_cons, hl]; omega)
      refine ⟨rows.set n v, ?_, by simp [hl]⟩
      rw [List.range_succ, List.foldlM_append, hr]
      simp only [bind, Except.bind, List.foldlM_cons, List.foldlM_nil, hv, pure, Except.pure,
        List.set_cons_succ]
  obtain ⟨rows, hr, hl⟩ := h 14 (le_refl _)
  refine ⟨rows, ?_, hl⟩
  rw [← hr]
  rfl

/-! ## Visible text of the grid lines -/

/-- The two bytes `%2d` prints for a day of the month: a blank (32) or the tens digit, then the
units digit (48 is the digit `0`). -/
theorem fmtD2_day (d : Int) (hd : 1 ≤ d ∧ d ≤ 31) :
    fmtD2 d = [if d < 10 then 32 else UInt8.ofNat (48 + (d / 10).toNat),
      UInt8.ofNat (48 + (d % 10).toNat)] := by
  obtain ⟨h1, h2⟩ := hd
  lift d to ℕ using (by omega)
  have h3 : d < 32 := by omega
  have h4 : 1 ≤ d := by omega
  interval_cases d <;> rfl

theorem stripMarkers_plain (a rest : GoString) (h : (36 : UInt8) ∉ a) :
    stripMarkers false (a ++ rest) = a ++ stripMarkers false rest := by
  induction a with
  | nil => rfl
  | cons c cs ih =>
    have hc : c ≠ 36 := fun e => h (by simp [e])
    have hcs : (36 : UInt8) ∉ cs := fun e => h (by simp [e])
    have e := ih hcs
    simp only [List.cons_append, stripMarkers, if_neg hc]
    exact congrArg (c :: ·) e

theorem stripMarkers_color (a rest : GoString) (h : (36 : UInt8) ∉ a) :
    stripMarkers false (color 1 a ++ rest) = a ++ stripMarkers false rest := by
  have e : color 1 a = utf8 "$\x7bcolor1\x7d" ++ (a ++ utf8 "$\x7bcolor0\x7d") := by
    simp only [color, List.append_assoc]
    rfl
  rw [e, List.append_assoc, List.append_assoc]
  have e1 : ∀ l, stripMarkers false (utf8 "$\x7bcolor1\x7d" ++ l) = stripMarkers false l := by
    intro l
    rfl
  have e2 : ∀ l, stripMarkers false (utf8 "$\x7bcolor0\x7d" ++ l) = stripMarkers false l := by
    intro l
    rfl
  rw [e1, stripMarkers_plain _ _ h, e2]

theorem fmtD2_day_plain (d : Int) (hd : 1 ≤ d ∧ d ≤ 31) :
    (36 : UInt8) ∉ fmtD2 d ++ utf8 " " ∧ (fmtD2 d).length = 2 := by
  obtain ⟨h1, h2⟩ := hd
  lift d to ℕ using (by omega)
  have h3 : d < 32 := by omega
  have h4 : 1 ≤ d := by omega
  interval_cases d <;> decide

/-- A grid cell shows the day of the month in three bytes, highlighted or not. -/
theorem stripMarkers_gridCell (now day : Time) (rest : GoString) :
    stripMarkers false (gridCell now day ++ rest)
      = (fmtD2 day.Day ++ utf8 " ") ++ stripMarkers false rest := by
  have hd : 1 ≤ day.Day ∧ day.Day ≤ 31 :=
    ⟨(absDate_spec day.abs).2.2.1, absDate_day_le day.abs⟩
  have hp := (fmtD2_day_plain day.Day hd).1
  simp only [gridCell]
  split_ifs
  · exact stripMarkers_color _ rest hp
  · exact stripMarkers_plain _ rest hp

theorem monthAbbr_plain (m : Int) (hm : 1 ≤ m ∧ m ≤ 12) :
    (36 : UInt8) ∉ monthAbbr m ++ utf8 " " ∧ (monthAbbr m).length = 3 := by
  obtain ⟨h1, h2⟩ := hm
  lift m to ℕ using (by omega)
  have h3 : m < 13 := by omega
  have h4 : 1 ≤ m := by omega
  interval_cases m <;> decide

theorem prefixText_length (first : Time) (week : Nat) : (prefixText first week).length = 4 := by
  have hm := absDate_spec (lastDayOfWeek (gridDay first week 0)).abs
  have h := (monthAbbr_plain (lastDayOfWeek (gridDay first week 0)).Month ⟨hm.1, hm.2.1⟩).2
  simp only [prefixText]
  split_ifs
  · rw [List.length_append, h]
    rfl
  · rfl

theorem stripMarkers_gridPrefix (first : Time) (week : Nat) (rest : GoString) :
    stripMarkers false (gridPrefix first week ++ rest)
      = prefixText first week ++ stripMarkers false rest := by
  have hm := absDate_spec (lastDayOfWeek (gridDay first week 0)).abs
  have h := (monthAbbr_plain (lastDayOfWeek (gridDay first week 0)).Month ⟨hm.1, hm.2.1⟩).1
  simp only [gridPrefix, prefixText]
  split_ifs
  · have hh : (36 : UInt8) ∉ monthAbbr (lastDayOfWeek (gridDay first week 0)).Month := by
      intro hc
      exact h (by simp [hc])
    rw [List.append_assoc, stripMarkers_color _ _ hh, List.append_assoc]
    congr 1
  · rfl

theorem stripMarkers_cells (now : Time) (days : List Time) (rest : GoString) :
    stripMarkers false ((days.map (gridCell now)).flatten ++ rest)
      = (days.map fun day => fmtD2 day.Day ++ utf8 " ").flatten
          ++ stripMarkers false rest := by
  induction days with
  | nil => rfl
  | cons d ds ih =>
    simp only [List.map_cons, List.flatten_cons, List.append_assoc]
    have h := stripMarkers_gridCell now d ((ds.map (gridCell now)).flatten ++ rest)
    rw [List.append_assoc] at h
    rw [h, ih]

/-- The visible text of a row: the prefix text, then the seven three-byte cells. -/
theorem visible_gridRow (now first : Time) (week : Nat) :
    visible (gridRow now first week)
      = prefixText first week ++ ((List.range 7).map fun weekday =>
          fmtD2 (gridDay first week weekday).Day ++ utf8 " ").flatten := by
  simp only [visible, gridRow, gridCells]
  rw [stripMarkers_gridPrefix]
  congr 1
  have h := stripMarkers_cells now ((List.range 7).map (gridDay first week)) []
  simp only [List.map_map, List.append_nil, stripMarkers] at h
  exact h

theorem visible_gridRow_length (now first : Time) (week : Nat) :
    (visible (gridRow now first week)).length = 25 := by
  have hr : List.range 7 = [0, 1, 2, 3, 4, 5, 6] := by decide
  have hl : ∀ k, (fmtD2 (gridDay first week k).Day).length = 2 := fun k =>
    (fmtD2_day_plain _ ⟨(absDate_spec _).2.2.1, absDate_day_le _⟩).2
  rw [visible_gridRow, List.length_append, prefixText_length]
  simp only [hr, List.map_cons, List.map_nil, List.flatten_cons,
    List.flatten_nil, List.length_append, List.length_nil, hl]
  rfl

theorem visible_gridHeader : visible gridHeader = utf8 "    Mo Di Mi Do Fr Sa So " := by
  rfl

theorem fmtD2_day_ascii (d : Int) (hd : 1 ≤ d ∧ d ≤ 31) :
    ∀ b ∈ fmtD2 d ++ utf8 " ", b.toNat < 128 := by
  obtain ⟨h1, h2⟩ := hd
  lift d to ℕ using (by omega)
  have h3 : d < 32 := by omega
  have h4 : 1 ≤ d := by omega
  interval_cases d <;> decide

theorem monthAbbr_ascii (m : Int) (hm : 1 ≤ m ∧ m ≤ 12) :
    ∀ b ∈ monthAbbr m ++ utf8 " ", b.toNat < 128 := by
  obtain ⟨h1, h2⟩ := hm
  lift m to ℕ using (by omega)
  have h3 : m < 13 := by omega
  have h4 : 1 ≤ m := by omega
  interval_cases m <;> decide

/-- The visible text of a row is ASCII: its length in bytes is its number of characters. -/
theorem visible_gridRow_ascii (now first : Time) (week : Nat) :
    ∀ b ∈ visible (gridRow now first week), b.toNat < 128 := by
  intro b hb
  rw [visible_gridRow] at hb
  rcases List.mem_append.1 hb with h | h
  · have hm := absDate_spec (lastDayOfWeek (gridDay first week 0)).abs
    simp only [prefixText] at h
    split_ifs at h
    · exact monthAbbr_ascii _ ⟨hm.1, hm.2.1⟩ b h
    · have hq : ∀ c ∈ utf8 "    ", c.toNat < 128 := by decide
      exact hq b h
  · obtain ⟨l, hl, hbl⟩ := List.mem_flatten.1 h
    obtain ⟨k, _, rfl⟩ := List.mem_map.1 hl
    exact fmtD2_day_ascii _ ⟨(absDate_spec _).2.2.1, absDate_day_le _⟩ b hbl

theorem visible_gridHeader_ascii : ∀ b ∈ visible gridHeader, b.toNat < 128 := by
  decide

/-! ## Results on the calendar grid -/

/-- A grid date has the calendar date of `now` exactly when it is the same day. -/
theorem isToday_iff (now t : Time) : isToday now t = true ↔ t.abs = now.abs := by
  simp only [isToday, Time.Day, Time.Month, Time.Year, Bool.and_eq_true, beq_iff_eq]
  constructor
  · rintro ⟨⟨h1, h2⟩, h3⟩
    exact absDate_injective _ _ (Prod.ext h3 (Prod.ext h2 h1))
  · intro h
    rw [h]
    exact ⟨⟨rfl, rfl⟩, rfl⟩

/-- The highlighted cells of the grid: none when `now` is a Sunday, otherwise the one cell of
row 0 in the slot of the weekday of `now`. -/
theorem isToday_gridDay (now : Time) (week weekday : Nat) (hk : weekday < 7) :
    isToday now (gridDay (firstDayOfWeek now) week weekday) = true
      ↔ now.Weekday ≠ 0 ∧ week = 0 ∧ (weekday : Int) + 1 = now.Weekday := by
  rw [isToday_iff, gridDay_eq, firstDayOfWeek_eq]
  simp only [Time.Weekday]
  omega

/-- C1, the code at a failing input: with `now` = Sunday 2024-01-07 12:00 (day number 738891)
`printCal` returns a grid that starts on Monday 2024-01-08; the cell of 2024-01-07 is not in it
and no day cell is wrapped by `color(1, ...)`.  This is the grid of a run in the location UTC. -/
theorem printCal_sunday_no_highlight :
    absDate 738891 = (2024, 1, 7) ∧ (⟨738891, 43200⟩ : Time).Weekday = 0 ∧
    printCal ⟨738891, 43200⟩ = .ok
      [utf8 "$\x7bcolor1\x7d    Mo Di Mi Do Fr Sa So $\x7bcolor0\x7d",
        utf8 "     8  9 10 11 12 13 14 ",
        utf8 "    15 16 17 18 19 20 21 ",
        utf8 "    22 23 24 25 26 27 28 ",
        utf8 "$\x7bcolor1\x7dFeb$\x7bcolor0\x7d 29 30 31  1  2  3  4 ",
        utf8 "     5  6  7  8  9 10 11 ",
        utf8 "    12 13 14 15 16 17 18 ",
        utf8 "    19 20 21 22 23 24 25 ",
        utf8 "$\x7bcolor1\x7dMar$\x7bcolor0\x7d 26 27 28 29  1  2  3 ",
        utf8 "     4  5  6  7  8  9 10 ",
        utf8 "    11 12 13 14 15 16 17 ",
        utf8 "    18 19 20 21 22 23 24 ",
        utf8 "    25 26 27 28 29 30 31 ",
        utf8 "$\x7bcolor1\x7dApr$\x7bcolor0\x7d  1  2  3  4  5  6  7 ",
        utf8 "     8  9 10 11 12 13 14 "] ∧
    printCalIn Location.utc ⟨738891, 43200⟩ = printCal ⟨738891, 43200⟩ :=
  ⟨by decide, by decide, by rfl, printCalIn_utc _ (by decide)⟩

/-- C2, the code at a failing input: for Sunday 2024-01-07 (day number 738891, Go weekday 0)
`firstDayOfWeek` returns Monday 2024-01-08, the day after its argument, not the Monday on or
before it (2024-01-01, day number 738885); so it does in a run in the location UTC. -/
theorem firstDayOfWeek_sunday_is_next_day :
    absDate 738891 = (2024, 1, 7) ∧ (⟨738891, 43200⟩ : Time).Weekday = 0 ∧
    firstDayOfWeek ⟨738891, 43200⟩ = ⟨738892, 43200⟩ ∧
    absDate 738892 = (2024, 1, 8) ∧ (⟨738892, 43200⟩ : Time).Weekday = 1 ∧
    ¬ (firstDayOfWeek ⟨738891, 43200⟩).abs ≤ (⟨738891, 43200⟩ : Time).abs ∧
    firstDayOfWeekIn Location.utc ⟨738891, 43200⟩ = ⟨738892, 43200⟩ :=
  ⟨by decide, by decide, by decide, by decide, by decide, by decide, by decide⟩

/-- In a location without zone transitions a week row of the grid carries a month abbreviation
exactly when its seven dates include the first of a month.  The rows are `gridPrefix ++ cells`;
a row that holds the first of a month (there is at most one) has the prefix `color 1` (first
three letters of that month name) plus a blank, a row that holds none has the prefix of four
blanks, and the two prefixes differ.  So a first of a month in the grid window has exactly one
row that holds it, and that row carries the abbreviation of its month. -/
theorem month_prefix_without_transitions (now : Time) (weeks : Nat) :
    printCalWith now weeks
        = .ok (gridHeader :: (List.range weeks).map (gridRow now (firstDayOfWeek now))) ∧
    (∀ week, gridRow now (firstDayOfWeek now) week
        = gridPrefix (firstDayOfWeek now) week
          ++ (gridCells now (firstDayOfWeek now) week).flatten) ∧
    (∀ week weekday, weekday < 7 → (gridDay (firstDayOfWeek now) week weekday).Day = 1 →
      gridPrefix (firstDayOfWeek now) week
          = color 1 ((monthName (gridDay (firstDayOfWeek now) week weekday).Month).take 3)
            ++ utf8 " " ∧
      ∀ other, other < 7 → (gridDay (firstDayOfWeek now) week other).Day = 1 →
        other = weekday) ∧
    (∀ week, (∀ weekday, weekday < 7 → (gridDay (firstDayOfWeek now) week weekday).Day ≠ 1) →
      gridPrefix (firstDayOfWeek now) week = utf8 "    ") ∧
    (∀ m : Int, color 1 ((monthName m).take 3) ++ utf8 " " ≠ utf8 "    ") ∧
    (∀ j : Nat, j < 7 * weeks → ((firstDayOfWeek now).AddDate 0 0 j).Day = 1 →
      ∃! week, week < weeks ∧
        (∃ weekday, weekday < 7 ∧
          gridDay (firstDayOfWeek now) week weekday = (firstDayOfWeek now).AddDate 0 0 j) ∧
        gridPrefix (firstDayOfWeek now) week
          = color 1 ((monthName ((firstDayOfWeek now).AddDate 0 0 j).Month).take 3)
            ++ utf8 " ") := by
  have hmon := firstDayOfWeek_weekday now
  refine ⟨printCalWith_eq now weeks, fun _ => rfl, ?_, ?_, ?_, ?_⟩
  · intro week weekday hk h1
    exact ⟨gridPrefix_of_first _ hmon week weekday hk h1,
      fun other ho h2 => gridDay_first_unique _ week other weekday ho hk h2 h1⟩
  · intro week h
    exact gridPrefix_of_no_first _ hmon week h
  · intro m h
    have h2 : (color 1 ((monthName m).take 3) ++ utf8 " ").head? = (utf8 "    ").head? := by
      rw [h]
    have e : ∀ l : GoString, (color 1 l ++ utf8 " ").head? = some 36 := fun l => rfl
    rw [e] at h2
    exact absurd h2 (by decide)
  · intro j hj h1
    have hday : gridDay (firstDayOfWeek now) (j / 7) (j % 7)
        = (firstDayOfWeek now).AddDate 0 0 j := by
      rw [gridDay_eq, AddDate_days]
      congr 1
      omega
    refine ⟨j / 7, ⟨by omega, ⟨j % 7, by omega, hday⟩, ?_⟩, ?_⟩
    · rw [← hday] at h1 ⊢
      exact gridPrefix_of_first _ hmon (j / 7) (j % 7) (by omega) h1
    · rintro w ⟨_, ⟨k, hk, he⟩, _⟩
      rw [gridDay_eq, AddDate_days] at he
      have := congrArg Time.abs he
      simp only at this
      omega

/-- C4: for every reference date and week count the grid has `weeks + 1` lines and its line 0 is
the header `color(1, "    Mo Di Mi Do Fr Sa So ")`, whatever the reference date; `printCal` has
15 lines, in every location. -/
theorem printCal_line_count (now : Time) (weeks : Nat) :
    (∃ rows, printCalWith now weeks = .ok (color 1 (utf8 "    Mo Di Mi Do Fr Sa So ") :: rows) ∧
      (color 1 (utf8 "    Mo Di Mi Do Fr Sa So ") :: rows).length = weeks + 1) ∧
    (∃ rows, printCal now = .ok (color 1 (utf8 "    Mo Di Mi Do Fr Sa So ") :: rows) ∧
      (color 1 (utf8 "    Mo Di Mi Do Fr Sa So ") :: rows).length = 14 + 1) ∧
    (∀ loc : Location,
      ∃ rows, printCalIn loc now = .ok (color 1 (utf8 "    Mo Di Mi Do Fr Sa So ") :: rows) ∧
        (color 1 (utf8 "    Mo Di Mi Do Fr Sa So ") :: rows).length = 14 + 1) := by
  have h : ∀ n, ∃ rows, printCalWith now n = .ok (color 1 (utf8 "    Mo Di Mi Do Fr Sa So ") :: rows) ∧
      (color 1 (utf8 "    Mo Di Mi Do Fr Sa So ") :: rows).length = n + 1 := fun n =>
    ⟨_, printCalWith_eq now n, by simp⟩
  refine ⟨h weeks, h 14, fun loc => ?_⟩
  obtain ⟨rows, hr, hl⟩ := printCalIn_total loc now
  exact ⟨rows, hr, by simp [hl]⟩

/-- C5: every line of the grid has 25 visible characters once the color markers are removed:
25 bytes, all of them ASCII (below 128), so one byte per character.  The visible text of the
header is `    Mo Di Mi Do Fr Sa So `; the visible text of a row is a prefix text of 4
characters followed by 7 cells, each the day of the month right-aligned in 2 characters (a
blank, byte 32, or the tens digit, then the units digit; byte 48 is the digit 0) followed by
one blank. -/
theorem grid_lines_visible_width (now : Time) (weeks : Nat) :
    ∃ lines, printCalWith now weeks = .ok lines ∧
      (∀ line ∈ lines, (visible line).length = 25) ∧
      (∀ line ∈ lines, ∀ b ∈ visible line, b.toNat < 128) ∧
      lines.head? = some gridHeader ∧
      visible gridHeader = utf8 "    Mo Di Mi Do Fr Sa So " ∧
      ∀ week, week < weeks →
        lines.get? (week + 1) = some (gridRow now (firstDayOfWeek now) week) ∧
        visible (gridRow now (firstDayOfWeek now) week)
          = prefixText (firstDayOfWeek now) week ++ ((List.range 7).map
              fun weekday =>
                fmtD2 (gridDay (firstDayOfWeek now) week weekday).Day ++ utf8 " ").flatten ∧
        (prefixText (firstDayOfWeek now) week).length = 4 ∧
        ∀ weekday, ∀ d, d = (gridDay (firstDayOfWeek now) week weekday).Day →
          (fmtD2 d).length = 2 ∧
          fmtD2 d = [if d < 10 then 32 else UInt8.ofNat (48 + (d / 10).toNat),
            UInt8.ofNat (48 + (d % 10).toNat)] := by
  refine ⟨_, printCalWith_eq now weeks, ?_, ?_, rfl, visible_gridHeader, ?_⟩
  · intro line hl
    rcases List.mem_cons.1 hl with h | h
    · rw [h, visible_gridHeader]
      rfl
    · obtain ⟨w, _, rfl⟩ := List.mem_map.1 h
      exact visible_gridRow_length now _ w
  · intro line hl
    rcases List.mem_cons.1 hl with h | h
    · rw [h]
      exact visible_gridHeader_ascii
    · obtain ⟨w, _, rfl⟩ := List.mem_map.1 h
      exact visible_gridRow_ascii now _ w
  · intro week hw
    refine ⟨?_, visible_gridRow now _ week, prefixText_length _ week, ?_⟩
    · simp [hw]
    · rintro weekday d rfl
      have hd : 1 ≤ (gridDay (firstDayOfWeek now) week weekday).Day ∧
          (gridDay (firstDayOfWeek now) week weekday).Day ≤ 31 :=
        ⟨(absDate_spec _).2.2.1, absDate_day_le _⟩
      exact ⟨(fmtD2_day_plain _ hd).2, fmtD2_day _ hd⟩

/-- Witness of C5 with `now` = 2024-01-10 and 14 weeks: the visible text of row 3. -/
theorem grid_lines_visible_width_witness :
    visible (gridRow ⟨738894, 0⟩ (firstDayOfWeek ⟨738894, 0⟩) 3)
      = utf8 "Feb 29 30 31  1  2  3  4 " ∧
    ∃ lines, printCalWith ⟨738894, 0⟩ 14 = .ok lines ∧
      ∀ line ∈ lines, (visible line).length = 25 := by
  obtain ⟨lines, h1, h2, _⟩ := grid_lines_visible_width ⟨738894, 0⟩ 14
  exact ⟨by rfl, lines, h1, h2⟩

/-- In a location without zone transitions the cell at slot `weekday` of row `week` is the cell
of the date `7 * week + weekday` days after `firstDayOfWeek now`; it shows the day of the month
of that date (highlighted or not), and the Go weekday of that date is `(1 + weekday) % 7`:
Monday (1) at slot 0 up to Saturday (6) at slot 5 and Sunday (0) at slot 6, the columns of the
header. -/
theorem slot_date_without_transitions (now : Time) (weeks week weekday : Nat)
    (hw : week < weeks) (hk : weekday < 7) :
    ∃ lines, printCalWith now weeks = .ok lines ∧
      lines.get? (week + 1) = some (gridPrefix (firstDayOfWeek now) week
        ++ (gridCells now (firstDayOfWeek now) week).flatten) ∧
      (gridCells now (firstDayOfWeek now) week).length = 7 ∧
      ∃ day : Time, day = (firstDayOfWeek now).AddDate 0 0 (7 * (week : Int) + weekday) ∧
        day.abs = (firstDayOfWeek now).abs + (7 * week + weekday) ∧
        (gridCells now (firstDayOfWeek now) week).get? weekday
          = some (if isToday now day then color 1 (fmtD2 day.Day ++ utf8 " ")
              else fmtD2 day.Day ++ utf8 " ") ∧
        visible (if isToday now day then color 1 (fmtD2 day.Day ++ utf8 " ")
              else fmtD2 day.Day ++ utf8 " ") = fmtD2 day.Day ++ utf8 " " ∧
        day.Weekday = (1 + weekday) % 7 ∧
        (firstDayOfWeek now).Weekday = 1 := by
  have hmon := firstDayOfWeek_weekday now
  refine ⟨_, printCalWith_eq now weeks, ?_, by simp [gridCells], _, rfl, ?_, ?_, ?_, ?_, hmon⟩
  · simp [hw, gridRow]
  · rw [AddDate_days]
  · have hd : gridDay (firstDayOfWeek now) week weekday
        = (firstDayOfWeek now).AddDate 0 0 (7 * (week : Int) + weekday) := by
      simp only [gridDay]
      congr 1
      omega
    simp [gridCells, hk, gridCell, hd]
  · have h := stripMarkers_gridCell now
      ((firstDayOfWeek now).AddDate 0 0 (7 * (week : Int) + weekday)) []
    simp only [List.append_nil, stripMarkers, gridCell] at h
    exact h
  · have h := gridDay_weekday _ hmon week weekday
    rw [gridDay_eq] at h
    rw [AddDate_days]
    simp only [Time.Weekday] at h ⊢
    omega

theorem slice_ok (s : GoString) (lo hi : Nat) (h1 : lo ≤ hi) (h2 : hi ≤ s.length) :
    slice s lo hi = .ok ((s.drop lo).take (hi - lo)) := by
  simp [slice, h1, h2]

theorem entriesItem_eq (now : Time) (out : List GoString) (lastDate : GoString) (e : Event)
    (he : e.wellFormed) :
    entriesItem now (out, lastDate) e
      = .ok (out ++ ((if lastDate ≠ eventDate e then [dateLabel now (eventDate e)] else [])
          ++ [eventLine e] ++ locationLines e), eventDate e) := by
  obtain ⟨h1, h2, h3⟩ := he
  have hne : e.Start.DateTime ≠ [] := by
    intro h
    rw [h] at h1
    simp at h1
  have h10 : 10 ≤ e.Start.DateTime.length := by omega
  simp only [entriesItem, if_neg hne, slice_ok _ 11 16 (by decide) h1,
    slice_ok _ 11 16 (by decide) h2, slice_ok _ 0 10 (by decide) h10,
    slice_ok _ 0 3 (by decide) h3, bind, Except.bind, pure, Except.pure, List.drop_zero,
    Nat.sub_zero, eventDate, eventLine, locationLines]
  by_cases hd : lastDate = e.Start.DateTime.take 10
  · by_cases hl : e.Location.length > 0 <;> simp [hd, hl]
  · by_cases hl : e.Location.length > 0 <;> simp [hd, hl]

theorem entries_foldlM (now : Time) (items : List Event) (hwf : ∀ e ∈ items, e.wellFormed) :
    ∀ (out : List GoString) (lastDate : GoString), ∃ last,
      items.foldlM (entriesItem now) (out, lastDate)
        = .ok (out ++ eventBlocks now lastDate items, last) := by
  induction items with
  | nil =>
    intro out lastDate
    exact ⟨lastDate, by simp [eventBlocks, pure, Except.pure]⟩
  | cons e es ih =>
    intro out lastDate
    have he := hwf e (by simp)
    obtain ⟨last, hl⟩ := ih (fun x hx => hwf x (by simp [hx])) (out ++ ((if lastDate ≠ eventDate e
      then [dateLabel now (eventDate e)] else []) ++ [eventLine e] ++ locationLines e))
      (eventDate e)
    refine ⟨last, ?_⟩
    rw [List.foldlM_cons, entriesItem_eq now out lastDate e he]
    simp only [bind, Except.bind] at hl ⊢
    rw [hl]
    simp [eventBlocks]

/-- The loop of `entries` in closed form, for well-formed timed records. -/
theorem entries_eq (now : Time) (items : List Event) (hne : items ≠ [])
    (hwf : ∀ e ∈ items, e.wellFormed) :
    entries now items = .ok (eventBlocks now [] items) := by
  obtain ⟨last, h⟩ := entries_foldlM now items hwf [] []
  have h0 : items.length ≠ 0 := by simpa using hne
  simp only [entries, if_neg h0, h, bind, Except.bind, pure, Except.pure, List.nil_append]

/-! ## The event list -/

theorem dayGroups_step (e : Event) (es : List Event) :
    dayGroups (e :: es) = match dayGroups es with
      | (d, g) :: gs =>
        if eventDate e = d then (d, e :: g) :: gs else (eventDate e, [e]) :: (d, g) :: gs
      | [] => [(eventDate e, [e])] := by
  rfl

theorem dayGroups_cons (e : Event) (es : List Event) :
    ∃ g gs, dayGroups (e :: es) = (eventDate e, e :: g) :: gs := by
  cases es with
  | nil => exact ⟨[], [], rfl⟩
  | cons e2 es2 =>
    rcases hd : dayGroups (e2 :: es2) with _ | ⟨⟨d, g⟩, gs⟩
    · exact ⟨[], [], by simp [dayGroups_step e, hd]⟩
    · by_cases h : eventDate e = d
      · exact ⟨g, gs, by simp [dayGroups_step e, hd, h]⟩
      · exact ⟨[], (d, g) :: gs, by simp [dayGroups_step e, hd, h]⟩

theorem eventBlocks_groups (now : Time) (es : List Event) :
    ∀ (e : Event) (lastDate : GoString), eventBlocks now lastDate (e :: es)
      = (if lastDate ≠ eventDate e then [dateLabel now (eventDate e)] else [])
        ++ (renderGroups now (dayGroups (e :: es))).tail := by
  induction es with
  | nil =>
    intro e lastDate
    simp [eventBlocks, dayGroups, renderGroups]
  | cons e2 es2 ih =>
    intro e lastDate
    obtain ⟨g, gs, hg⟩ := dayGroups_cons e2 es2
    have h2 := ih e2 (eventDate e)
    rw [eventBlocks, h2]
    by_cases h : eventDate e = eventDate e2
    · have hd : dayGroups (e :: e2 :: es2) = (eventDate e2, e :: e2 :: g) :: gs := by
        simp [dayGroups_step e, hg, h]
      simp [hd, hg, h, renderGroups]
    · have hd : dayGroups (e :: e2 :: es2)
          = (eventDate e, [e]) :: (eventDate e2, e2 :: g) :: gs := by
        simp [dayGroups_step e, hg, h]
      simp [hd, hg, h, renderGroups]

theorem eventDate_length (e : Event) (he : e.wellFormed) : (eventDate e).length = 10 := by
  obtain ⟨h1, _, _⟩ := he
  have e1 : (eventDate e).length = (e.Start.DateTime.take 10).length := rfl
  rw [e1, List.length_take]
  omega

theorem eventDate_ne_empty (e : Event) (he : e.wellFormed) : [] ≠ eventDate e := by
  intro h
  have := eventDate_length e he
  rw [← h] at this
  simp at this

theorem dayGroups_flatten (items : List Event) :
    ((dayGroups items).map fun g => g.2).flatten = items := by
  induction items with
  | nil => rfl
  | cons e es ih =>
    rcases hd : dayGroups es with _ | ⟨⟨d, g⟩, gs⟩
    · rw [hd] at ih
      simp only [List.map_nil, List.flatten_nil] at ih
      rw [dayGroups_step, hd, ← ih]
      rfl
    · rw [hd] at ih
      by_cases h : eventDate e = d
      · simp [dayGroups_step e, hd, h] at ih ⊢
        exact ih
      · simp [dayGroups_step e, hd, h] at ih ⊢
        exact ih

theorem dayGroups_mem (items : List Event) :
    ∀ g ∈ dayGroups items, g.2 ≠ [] ∧ ∀ e ∈ g.2, eventDate e = g.1 := by
  induction items with
  | nil => simp [dayGroups]
  | cons e es ih =>
    rcases hd : dayGroups es with _ | ⟨⟨d, g⟩, gs⟩
    · simp [dayGroups_step e, hd]
    · rw [hd] at ih
      have i1 := ih (d, g) (by simp)
      have i2 : ∀ x ∈ gs, x.2 ≠ [] ∧ ∀ e ∈ x.2, eventDate e = x.1 :=
        fun x hx => ih x (by simp [hx])
      by_cases h : eventDate e = d
      · intro x hx
        simp [dayGroups_step e, hd, h] at hx
        rcases hx with rfl | hx
        · exact ⟨by simp, by
            intro y hy
            rcases List.mem_cons.1 hy with rfl | hy
            · exact h
            · exact i1.2 y hy⟩
        · exact i2 x hx
      · intro x hx
        simp [dayGroups_step e, hd, h] at hx
        rcases hx with rfl | rfl | hx
        · simp
        · exact i1
        · exact i2 x hx

theorem dayGroups_chain (items : List Event) :
    List.Chain' (fun g h : GoString × List Event => g.1 ≠ h.1) (dayGroups items) := by
  induction items with
  | nil => simp [dayGroups]
  | cons e es ih =>
    rcases hd : dayGroups es with _ | ⟨⟨d, g⟩, gs⟩
    · simp [dayGroups_step e, hd]
    · rw [hd] at ih
      by_cases h : eventDate e = d
      · simp only [dayGroups_step e, hd, h, if_true]
        cases gs with
        | nil => simp
        | cons x xs =>
          rw [List.chain'_cons] at ih ⊢
          exact ih
      · simp only [dayGroups_step e, hd, h, if_false]
        rw [List.chain'_cons]
        exact ⟨h, ih⟩

theorem location_nonempty_iff (e : Event) : e.Location.length > 0 ↔ e.Location ≠ [] := by
  constructor
  · intro h he
    rw [he] at h
    simp at h
  · intro h
    exact List.length_pos.2 h

theorem eventBlocks_length (now : Time) (items : List Event) :
    ∀ lastDate, (eventBlocks now lastDate items).length
      = labelCount lastDate (items.map eventDate) + items.length
        + (items.filter fun e => e.Location ≠ []).length := by
  induction items with
  | nil =>
    intro lastDate
    simp [eventBlocks, labelCount]
  | cons e es ih =>
    intro lastDate
    have hl : (locationLines e).length = if e.Location ≠ [] then 1 else 0 := by
      simp only [locationLines, location_nonempty_iff]
      split_ifs <;> rfl
    simp only [eventBlocks, List.length_append, ih, hl, List.map_cons, labelCount,
      List.length_cons, List.length_nil, List.filter_cons, decide_eq_true_eq]
    by_cases h1 : lastDate ≠ eventDate e <;> by_cases h2 : e.Location ≠ [] <;>
      simp [h1, h2] <;> omega

theorem toNat_injective : Function.Injective UInt8.toNat :=
  fun _ _ h => UInt8.ext h

theorem goLe_antisymm (a b : GoString) (h1 : GoString.le a b) (h2 : GoString.le b a) :
    a = b :=
  List.map_injective_iff.2 toNat_injective (le_antisymm h1 h2)

theorem goLe_refl (a : GoString) : GoString.le a a :=
  le_refl (a.map UInt8.toNat)

/-- In a sorted list of date texts a label is emitted once per distinct date. -/
theorem labelCount_sorted (ds : List GoString) :
    ∀ a, List.Sorted GoString.le (a :: ds) →
      labelCount a ds + (if a ∈ ds then 1 else 0) = ds.dedup.length := by
  induction ds with
  | nil =>
    intro a _
    simp [labelCount]
  | cons b r ih =>
    intro a hs
    have hs2 : List.Sorted GoString.le (b :: r) := (List.sorted_cons.1 hs).2
    have hab : ∀ x ∈ b :: r, GoString.le a x := (List.sorted_cons.1 hs).1
    have hbr : ∀ x ∈ r, GoString.le b x := (List.sorted_cons.1 hs2).1
    have hmem : a ∈ b :: r ↔ a = b := by
      constructor
      · intro h
        rcases List.mem_cons.1 h with h | h
        · exact h
        · exact goLe_antisymm a b (hab b (by simp)) (hbr a h)
      · intro h
        simp [h]
    have i := ih b hs2
    by_cases hbm : b ∈ r
    · rw [List.dedup_cons_of_mem hbm]
      simp only [hbm, if_true] at i
      by_cases h : a = b
      · simp [labelCount, hmem, h]
        omega
      · simp [labelCount, hmem, h]
        omega
    · rw [List.dedup_cons_of_not_mem hbm]
      simp only [hbm, if_false] at i
      by_cases h : a = b
      · simp [labelCount, hmem, h]
        omega
      · simp [labelCount, hmem, h]
        omega

theorem labelCount_distinct (ds : List GoString) (hs : List.Sorted GoString.le ds)
    (h0 : [] ∉ ds) : labelCount [] ds = ds.toFinset.card := by
  rw [List.card_toFinset]
  cases ds with
  | nil => rfl
  | cons a r =>
    have ha : [] ≠ a := fun h => h0 (by simp [h])
    have i := labelCount_sorted r a hs
    by_cases hm : a ∈ r
    · rw [List.dedup_cons_of_mem hm]
      simp [labelCount, ha, hm] at i ⊢
      omega
    · rw [List.dedup_cons_of_not_mem hm]
      simp [labelCount, ha, hm] at i ⊢
      omega

theorem eventBlocks_append (now : Time) (pre rest : List Event) :
    ∀ lastDate, ∃ last, eventBlocks now lastDate (pre ++ rest)
      = eventBlocks now lastDate pre ++ eventBlocks now last rest := by
  induction pre with
  | nil =>
    intro lastDate
    exact ⟨lastDate, by simp [eventBlocks]⟩
  | cons e es ih =>
    intro lastDate
    obtain ⟨last, h⟩ := ih (eventDate e)
    exact ⟨last, by simp [eventBlocks, h]⟩

/-- C7, counterexample: for the two sample records on the date of `sampleNow` the output has
the 4 lines below, and none of them contains the text `09:00-10:00 [con] Standup`: in the event
line the closing color marker stands between the time range and the status. -/
theorem entries_sample_no_plain_event_line :
    entries sampleNow [sampleStandup, sampleReview] = .ok
      [utf8 "Today, 2024-01-10",
        utf8 "$\x7bcolor1\x7d09:00-10:00$\x7bcolor0\x7d [con] Standup",
        utf8 "$\x7bcolor1\x7d14:00-15:00$\x7bcolor0\x7d [con] Review",
        utf8 "            @Room 2"] ∧
    ∀ line ∈ [utf8 "Today, 2024-01-10",
        utf8 "$\x7bcolor1\x7d09:00-10:00$\x7bcolor0\x7d [con] Standup",
        utf8 "$\x7bcolor1\x7d14:00-15:00$\x7bcolor0\x7d [con] Review",
        utf8 "            @Room 2"], ¬ (utf8 "09:00-10:00 [con] Standup" <:+: line) :=
  ⟨by rfl, by decide⟩

/-- C7, amended: for every non-empty list of well-formed timed records sorted by date text,
`entries` returns (number of distinct dates) + (number of records) + (number of records with a
non-empty location) lines: one label line per distinct date.  For the two sample records on the
date of `sampleNow` the 4 lines are the label `Today, 2024-01-10`, two event lines whose visible
text (color markers removed) is `09:00-10:00 [con] Standup` and `14:00-15:00 [con] Review`, and
the location line `@Room 2` after 12 blanks. -/
theorem entries_one_label_per_date :
    (∀ (now : Time) (items : List Event), items ≠ [] → (∀ e ∈ items, e.wellFormed) →
      List.Sorted GoString.le (items.map eventDate) →
      ∃ out, entries now items = .ok out ∧
        out.length = (items.map eventDate).toFinset.card + items.length
          + (items.filter fun e => e.Location ≠ []).length) ∧
    (absDate sampleNow.abs = (2024, 1, 10) ∧
      ∃ l1 l2, entries sampleNow [sampleStandup, sampleReview]
          = .ok [utf8 "Today, 2024-01-10", l1, l2, utf8 "            @Room 2"] ∧
        l1 = color 1 (utf8 "09:00-10:00") ++ utf8 " [con] Standup" ∧
        l2 = color 1 (utf8 "14:00-15:00") ++ utf8 " [con] Review" ∧
        visible l1 = utf8 "09:00-10:00 [con] Standup" ∧
        visible l2 = utf8 "14:00-15:00 [con] Review") := by
  constructor
  · intro now items hne hwf hs
    refine ⟨_, entries_eq now items hne hwf, ?_⟩
    rw [eventBlocks_length, labelCount_distinct _ hs]
    intro h
    obtain ⟨e, he, h0⟩ := List.mem_map.1 h
    exact eventDate_ne_empty e (hwf e he) h0.symm
  · exact ⟨by decide, _, _, by rfl, by rfl, by rfl, by rfl, by rfl⟩

/-- Witness of C7 (amended): the general count at the two sample records, 1 + 2 + 1 = 4. -/
theorem entries_one_label_per_date_witness :
    ([sampleStandup, sampleReview] ≠ [] ∧ (∀ e ∈ [sampleStandup, sampleReview], e.wellFormed) ∧
      List.Sorted GoString.le ([sampleStandup, sampleReview].map eventDate)) ∧
    ∃ out, entries sampleNow [sampleStandup, sampleReview] = .ok out ∧ out.length = 4 := by
  have h1 : [sampleStandup, sampleReview] ≠ [] := by decide
  have h2 : ∀ e ∈ [sampleStandup, sampleReview], e.wellFormed := by decide
  have h3 : List.Sorted GoString.le ([sampleStandup, sampleReview].map eventDate) := by
    have e1 : eventDate sampleStandup = utf8 "2024-01-10" := by rfl
    have e2 : eventDate sampleReview = utf8 "2024-01-10" := by rfl
    simp [e1, e2, goLe_refl]
  obtain ⟨out, ho, hl⟩ := entries_one_label_per_date.1 sampleNow _ h1 h2 h3
  refine ⟨⟨h1, h2, h3⟩, out, ho, ?_⟩
  rw [hl]
  have e1 : eventDate sampleStandup = utf8 "2024-01-10" := by rfl
  have e2 : eventDate sampleReview = utf8 "2024-01-10" := by rfl
  have e3 : (List.filter (fun e => decide (e.Location ≠ [])) [sampleStandup, sampleReview]).length
      = 1 := by decide
  rw [e3]
  simp [e1, e2]

/-- C8: `entries` never reorders the records.  For well-formed timed records, sorted or not, the
output is the rendering of the day groups of the input: per group one label line, then per
record of the group its event line and its location line if any.  The records of the groups,
read in order, are the input list; no group is empty; every record has the date of its group;
neighbouring groups have different dates. -/
theorem entries_groups_in_order (now : Time) (items : List Event) (hne : items ≠ [])
    (hwf : ∀ e ∈ items, e.wellFormed) :
    entries now items = .ok (renderGroups now (dayGroups items)) ∧
    renderGroups now (dayGroups items) = ((dayGroups items).map fun g =>
      dateLabel now g.1 :: (g.2.map fun e => eventLine e :: locationLines e).flatten).flatten ∧
    ((dayGroups items).map fun g => g.2).flatten = items ∧
    (∀ g ∈ dayGroups items, g.2 ≠ [] ∧ ∀ e ∈ g.2, eventDate e = g.1) ∧
    List.Chain' (fun g h : GoString × List Event => g.1 ≠ h.1) (dayGroups items) := by
  refine ⟨?_, rfl, dayGroups_flatten items, dayGroups_mem items, dayGroups_chain items⟩
  rw [entries_eq now items hne hwf]
  cases items with
  | nil => exact absurd rfl hne
  | cons e es =>
    obtain ⟨g, gs, hg⟩ := dayGroups_cons e es
    rw [eventBlocks_groups, if_pos (eventDate_ne_empty e (hwf e (by simp))), hg]
    simp [renderGroups]

/-- Witness of C8: the two sample records form one day group. -/
theorem entries_groups_in_order_witness :
    ([sampleStandup, sampleReview] ≠ [] ∧ ∀ e ∈ [sampleStandup, sampleReview], e.wellFormed) ∧
    dayGroups [sampleStandup, sampleReview]
      = [(utf8 "2024-01-10", [sampleStandup, sampleReview])] ∧
    entries sampleNow [sampleStandup, sampleReview]
      = .ok (renderGroups sampleNow (dayGroups [sampleStandup, sampleReview])) :=
  ⟨⟨by decide, by decide⟩, by rfl,
    (entries_groups_in_order sampleNow [sampleStandup, sampleReview] (by decide)
      (by decide)).1⟩

theorem isTomorrow_iff (now t : Time) : isTomorrow now t = true ↔ t.abs = now.abs + 1 := by
  rw [isTomorrow, isToday_iff, AddDate_days]
  simp only
  omega

/-- A date text that `time.Parse` accepts denotes the calendar date it is parsed to. -/
theorem parseDate_date (ds : GoString) (t : Time) (hp : parseDate ds = some t) :
    ds.length = 10 ∧ ∃ y m d : Int, t = Date y m d 0 ∧ (1 ≤ m ∧ m ≤ 12) ∧
      (1 ≤ d ∧ d ≤ daysIn m y) ∧ absDate t.abs = (y, m, d) := by
  unfold parseDate at hp
  split at hp
  · rename_i y1 y2 y3 y4 s1 m1 m2 s2 d1 d2 hdata
    split at hp
    · rename_i a b c d e f g h _ _ _ _ _ _ _ _
      dsimp only at hp
      split at hp
      · rename_i hc
        obtain ⟨_, _, hm1, hm2, hd1, hd2⟩ := hc
        have ht : t = Date (1000 * a + 100 * b + 10 * c + d) (10 * e + f) (10 * g + h) 0 :=
          (Option.some.inj hp).symm
        refine ⟨by simp, _, _, _, ht, ⟨hm1, hm2⟩, ⟨hd1, hd2⟩, ?_⟩
        rw [ht, Date_abs _ _ _ _ ⟨hm1, hm2⟩]
        exact absDate_of_valid _ _ _ ⟨hm1, hm2⟩ ⟨hd1, hd2⟩
      · exact absurd hp (by simp)
    · exact absurd hp (by simp)
  · exact absurd hp (by simp)

theorem today_ne_tomorrow (ds : GoString) :
    utf8 "Today, " ++ ds ≠ utf8 "Tomorrow, " ++ ds := by
  intro h
  have h2 : (utf8 "Today, " ++ ds).take 3 = (utf8 "Tomorrow, " ++ ds).take 3 := by rw [h]
  have h3 : ([84, 111, 100] : GoString) = [84, 111, 109] := h2
  exact absurd h3 (by decide)

theorem weekdayName_take (w : Int) (hw : 0 ≤ w ∧ w ≤ 6) :
    2 ≤ (weekdayName w).length ∧ (weekdayName w).take 2 ≠ [84, 111] ∧
    weekdayName w ∈ [utf8 "Sunday", utf8 "Monday", utf8 "Tuesday", utf8 "Wednesday",
      utf8 "Thursday", utf8 "Friday", utf8 "Saturday"] := by
  obtain ⟨h0, h6⟩ := hw
  lift w to ℕ using h0
  have h7 : w < 7 := by omega
  interval_cases w <;> decide

theorem weekdayName_ne (w : Int) (hw : 0 ≤ w ∧ w ≤ 6) (ds : GoString) :
    weekdayName w ++ utf8 ", " ++ ds ≠ utf8 "Today, " ++ ds ∧
    weekdayName w ++ utf8 ", " ++ ds ≠ utf8 "Tomorrow, " ++ ds := by
  obtain ⟨hl, hn, _⟩ := weekdayName_take w hw
  have e : (weekdayName w ++ utf8 ", " ++ ds).take 2 = (weekdayName w).take 2 := by
    rw [List.append_assoc, List.take_append_of_le_length hl]
  constructor
  · intro h
    rw [h] at e
    exact hn e.symm
  · intro h
    rw [h] at e
    exact hn e.symm

theorem weekday_range (t : Time) : 0 ≤ t.Weekday ∧ t.Weekday ≤ 6 := by
  simp only [Time.Weekday]
  omega

/-- C9: for a date text `ds` that parses to the calendar date `t`, the label is `Today, ds`
exactly when `t` is the calendar date of `now` (same year, month and day), `Tomorrow, ds`
exactly when `t` is one day after the day of `now`, and otherwise the English weekday name of
`t`, a comma and `ds`; two days after `now` it is the weekday label, not `Tomorrow`.  The label
is the first line `entries` emits for a record with that date text. -/
theorem date_label_cases (now : Time) (ds : GoString) (t : Time) (hp : parseDate ds = some t) :
    (dateLabel now ds = utf8 "Today, " ++ ds ↔ absDate t.abs = absDate now.abs) ∧
    (dateLabel now ds = utf8 "Tomorrow, " ++ ds ↔ t.abs = now.abs + 1) ∧
    (dateLabel now ds = weekdayName t.Weekday ++ utf8 ", " ++ ds
      ↔ ¬ absDate t.abs = absDate now.abs ∧ ¬ t.abs = now.abs + 1) ∧
    (t.abs = now.abs + 2 → dateLabel now ds = weekdayName t.Weekday ++ utf8 ", " ++ ds ∧
      dateLabel now ds ≠ utf8 "Tomorrow, " ++ ds) ∧
    weekdayName t.Weekday ∈
      [utf8 "Sunday", utf8 "Monday", utf8 "Tuesday", utf8 "Wednesday", utf8 "Thursday",
        utf8 "Friday", utf8 "Saturday"] ∧
    (∃ y m d : Int, absDate t.abs = (y, m, d) ∧ t = Date y m d 0 ∧ (1 ≤ m ∧ m ≤ 12) ∧
      (1 ≤ d ∧ d ≤ daysIn m y)) ∧
    (∀ e : Event, e.wellFormed → eventDate e = ds →
      ∃ rest, entries now [e] = .ok (dateLabel now ds :: rest)) := by
  have hinj : absDate t.abs = absDate now.abs ↔ t.abs = now.abs :=
    ⟨absDate_injective _ _, fun h => by rw [h]⟩
  have hw := weekday_range t
  obtain ⟨hne1, hne2⟩ := weekdayName_ne t.Weekday hw ds
  have hl : dateLabel now ds = if t.abs = now.abs then utf8 "Today, " ++ ds
      else if t.abs = now.abs + 1 then utf8 "Tomorrow, " ++ ds
      else weekdayName t.Weekday ++ utf8 ", " ++ ds := by
    simp only [dateLabel, hp, Option.getD_some, isToday_iff, isTomorrow_iff]
  have hcases : t.abs = now.abs ∨ t.abs = now.abs + 1 ∨ (t.abs ≠ now.abs ∧ t.abs ≠ now.abs + 1) := by
    omega
  have hwd := (weekdayName_take t.Weekday hw).2.2
  obtain ⟨_, y, m, d, hd1, hd2, hd3, hd4⟩ := parseDate_date ds t hp
  have hA : t.abs = now.abs → dateLabel now ds = utf8 "Today, " ++ ds := by
    intro h
    rw [hl, if_pos h]
  have hB : t.abs = now.abs + 1 → dateLabel now ds = utf8 "Tomorrow, " ++ ds := by
    intro h
    have h' : ¬ t.abs = now.abs := by omega
    rw [hl, if_neg h', if_pos h]
  have hC : ¬ t.abs = now.abs → ¬ t.abs = now.abs + 1 →
      dateLabel now ds = weekdayName t.Weekday ++ utf8 ", " ++ ds := by
    intro h1 h2
    rw [hl, if_neg h1, if_neg h2]
  refine ⟨?_, ?_, ?_, ?_, hwd, ⟨y, m, d, hd4, hd1, hd2, hd3⟩, ?_⟩
  · rw [hinj]
    constructor
    · intro h
      rcases hcases with h1 | h1 | ⟨h1, h2⟩
      · exact h1
      · rw [hB h1] at h
        exact absurd h.symm (today_ne_tomorrow ds)
      · rw [hC h1 h2] at h
        exact absurd h hne1
    · exact hA
  · constructor
    · intro h
      rcases hcases with h1 | h1 | ⟨h1, h2⟩
      · rw [hA h1] at h
        exact absurd h (today_ne_tomorrow ds)
      · exact h1
      · rw [hC h1 h2] at h
        exact absurd h hne2
    · exact hB
  · rw [hinj]
    constructor
    · intro h
      rcases hcases with h1 | h1 | ⟨h1, h2⟩
      · rw [hA h1] at h
        exact absurd h.symm hne1
      · rw [hB h1] at h
        exact absurd h.symm hne2
      · exact ⟨h1, h2⟩
    · rintro ⟨h1, h2⟩
      exact hC h1 h2
  · intro h2
    have h' : ¬ t.abs = now.abs := by omega
    have hy : ¬ t.abs = now.abs + 1 := by omega
    rw [hC h' hy]
    exact ⟨rfl, hne2⟩
  · intro e he hds
    refine ⟨[eventLine e] ++ locationLines e, ?_⟩
    rw [entries_eq now [e] (by simp) (by simpa using he), eventBlocks,
      if_pos (eventDate_ne_empty e he), hds]
    simp [eventBlocks]

/-- Witness of C9: with `now` = 2024-01-10 the date text `2024-01-12` (two days later, a
Friday) gets the weekday label. -/
theorem date_label_cases_witness :
    parseDate (utf8 "2024-01-12") = some ⟨738896, 0⟩ ∧
    dateLabel sampleNow (utf8 "2024-01-12") = utf8 "Friday, 2024-01-12" ∧
    dateLabel sampleNow (utf8 "2024-01-12") ≠ utf8 "Tomorrow, " ++ utf8 "2024-01-12" := by
  have hp : parseDate (utf8 "2024-01-12") = some ⟨738896, 0⟩ := by decide
  have h := (date_label_cases sampleNow (utf8 "2024-01-12") ⟨738896, 0⟩ hp).2.2.2.1
    (by decide)
  exact ⟨hp, by rfl, h.2⟩

theorem utf8_cons (c : Char) (cs : List Char) :
    utf8 ⟨c :: cs⟩ = String.utf8EncodeChar c ++ utf8 ⟨cs⟩ := by
  simp [utf8]

theorem utf8EncodeChar_ascii (c : Char) (h : c.toNat < 128) :
    String.utf8EncodeChar c = [c.val.toUInt8] := by
  have h2 : c.val ≤ 0x7f := by
    have : c.val.toNat < 128 := h
    rw [UInt32.le_def, BitVec.le_def]
    exact Nat.le_of_lt_succ this
  simp [String.utf8EncodeChar, h2]

/-- The UTF-8 encoding of an ASCII text has one byte per character. -/
theorem utf8_ascii (cs : List Char) (h : ∀ c ∈ cs, c.toNat < 128) :
    utf8 ⟨cs⟩ = cs.map fun c => c.val.toUInt8 := by
  induction cs with
  | nil => rfl
  | cons c r ih =>
    rw [utf8_cons, utf8EncodeChar_ascii c (h c (by simp)), ih (fun x hx => h x (by simp [hx]))]
    rfl

theorem utf8_ascii_take (cs : List Char) (h : ∀ c ∈ cs, c.toNat < 128) (n : Nat) :
    (utf8 ⟨cs⟩).take n = utf8 ⟨cs.take n⟩ ∧ (utf8 ⟨cs⟩).drop n = utf8 ⟨cs.drop n⟩ ∧
      (utf8 ⟨cs⟩).length = cs.length := by
  rw [utf8_ascii cs h, utf8_ascii (cs.take n) (fun c hc => h c (List.mem_of_mem_take hc)),
    utf8_ascii (cs.drop n) (fun c hc => h c (List.mem_of_mem_drop hc))]
  simp [List.map_take, List.map_drop]

/-- C10, counterexample: the record `sampleAccent` has start and end date-time of the form
`YYYY-MM-DDTHH:MM:SS...` and the status `éab` of 3 characters, which are 4 bytes.  Its event
line shows `[éa]`, the first 3 bytes of the status, and not `[éab]`, its first 3 characters:
the source slices `item.Status[0:3]`, and a Go slice of a string counts bytes. -/
theorem entries_status_cut_at_three_bytes :
    sampleAccent.Status = utf8 "éab" ∧ "éab".length = 3 ∧ (utf8 "éab").length = 4 ∧
    "éab".take 3 = "éab" ∧ (utf8 "éab").take 3 = utf8 "éa" ∧
    entries sampleNow [sampleAccent] = .ok
      [utf8 "Today, 2024-01-10",
        utf8 "$\x7bcolor1\x7d09:00-10:00$\x7bcolor0\x7d [éa] Standup"] ∧
    utf8 "$\x7bcolor1\x7d09:00-10:00$\x7bcolor0\x7d [éa] Standup"
      ≠ color 1 (utf8 "09:00" ++ utf8 "-" ++ utf8 "10:00") ++ utf8 " [" ++ utf8 ("éab".take 3)
          ++ utf8 "] " ++ utf8 "Standup" :=
  ⟨by rfl, by decide, by decide, by decide, by decide, by rfl, by decide⟩

/-- C10, amended: for a timed record `e` anywhere in the input whose start and end date-time
have at least 16 bytes and whose status has at least 3 bytes, the lines emitted for `e` are an
optional label line, then the event line `color(1, S ++ "-" ++ E) ++ " [" ++ (first 3 bytes of
the status) ++ "] " ++ summary` with `S`, `E` the bytes 11..15 of the start and end date-time,
then, exactly when the location is non-empty, the line of 12 blanks, `@` and the location.
Before them stand the lines of the earlier records, after them the lines of the later records.
For an ASCII text the bytes are the characters: the first `n` bytes are the first `n`
characters, the bytes from `n` on are the characters from `n` on. -/
theorem event_line_format (now : Time) (pre post : List Event) (e : Event)
    (hwf : ∀ x ∈ pre ++ e :: post, x.wellFormed) :
    (∃ label, (label = [] ∨ label = [dateLabel now (eventDate e)]) ∧
      entries now (pre ++ e :: post) = .ok (eventBlocks now [] pre ++ label
        ++ [color 1 ((e.Start.DateTime.drop 11).take 5 ++ utf8 "-"
              ++ (e.End.DateTime.drop 11).take 5)
            ++ utf8 " [" ++ e.Status.take 3 ++ utf8 "] " ++ e.Summary]
        ++ (if e.Location ≠ [] then [List.replicate 12 32 ++ utf8 "@" ++ e.Location] else [])
        ++ eventBlocks now (eventDate e) post)) ∧
    (∀ (cs : List Char), (∀ c ∈ cs, c.toNat < 128) → ∀ n : Nat,
      (utf8 ⟨cs⟩).take n = utf8 ⟨cs.take n⟩ ∧ (utf8 ⟨cs⟩).drop n = utf8 ⟨cs.drop n⟩ ∧
        (utf8 ⟨cs⟩).length = cs.length) := by
  refine ⟨?_, utf8_ascii_take⟩
  obtain ⟨last, h⟩ := eventBlocks_append now pre (e :: post) []
  have hloc : locationLines e
      = if e.Location ≠ [] then [List.replicate 12 32 ++ utf8 "@" ++ e.Location] else [] := by
    simp only [locationLines, location_nonempty_iff]
    split_ifs
    · rfl
    · rfl
  refine ⟨if last ≠ eventDate e then [dateLabel now (eventDate e)] else [], ?_, ?_⟩
  · split_ifs
    · exact Or.inr rfl
    · exact Or.inl rfl
  · rw [entries_eq now _ (by simp) hwf, h, eventBlocks, hloc]
    simp only [List.append_assoc, eventLine]

/-- Witness of C10 (amended): the record `sampleAccent` after `sampleStandup`; the status `éab`
is cut to its first 3 bytes `éa`. -/
theorem event_line_format_witness :
    (∀ x ∈ [sampleStandup] ++ sampleAccent :: [sampleReview], x.wellFormed) ∧
    ∃ label, (label = [] ∨ label = [dateLabel sampleNow (eventDate sampleAccent)]) ∧
      entries sampleNow ([sampleStandup] ++ sampleAccent :: [sampleReview]) = .ok
        (eventBlocks sampleNow [] [sampleStandup] ++ label
          ++ [utf8 "$\x7bcolor1\x7d09:00-10:00$\x7bcolor0\x7d [éa] Standup"]
          ++ []
          ++ eventBlocks sampleNow (eventDate sampleAccent) [sampleReview]) := by
  have hwf : ∀ x ∈ [sampleStandup] ++ sampleAccent :: [sampleReview], x.wellFormed := by decide
  obtain ⟨label, h1, h2⟩ :=
    (event_line_format sampleNow [sampleStandup] [sampleReview] sampleAccent hwf).1
  exact ⟨hwf, label, h1, h2⟩

/-! ## The compositor -/

theorem max_eq (a b : Nat) : GcalConky.max a b = Nat.max a b := by
  simp only [GcalConky.max, Nat.max_def]
  split_ifs <;> omega

theorem getAt_get (xs : List GoString) (i : Nat) (h : i < xs.length) :
    getAt xs i = .ok (xs.get ⟨i, h⟩) :=
  getAt_ok xs i _ (List.get?_eq_get h)

theorem leftPart_of_lt (left : List GoString) (i : Nat) (h : i < left.length) :
    leftPart left i = left.get ⟨i, h⟩ ++ utf8 "    " := by
  rw [leftPart, List.get?_eq_get h]

theorem leftPart_of_ge (left : List GoString) (i : Nat) (h : ¬ i < left.length) :
    leftPart left i = List.replicate 29 32 := by
  rw [leftPart, List.get?_eq_none.2 (not_lt.1 h)]

theorem rightPart_of_lt (right : List GoString) (i : Nat) (h : i < right.length) :
    rightPart right i = escapeHash (right.get ⟨i, h⟩) := by
  rw [rightPart, List.get?_eq_get h]

theorem rightPart_of_ge (right : List GoString) (i : Nat) (h : ¬ i < right.length) :
    rightPart right i = [] := by
  rw [rightPart, List.get?_eq_none.2 (not_lt.1 h)]

theorem escapeHash_cons (c : UInt8) (cs : GoString) :
    escapeHash (c :: cs) = (if c = 35 then [92, 35] else [c]) ++ escapeHash cs := by
  simp [escapeHash]

theorem replaceScan_hash (cs : GoString) :
    replaceScan [35] [92, 35] 0 cs = escapeHash cs := by
  induction cs with
  | nil => rfl
  | cons c cs ih =>
    rw [escapeHash_cons, replaceScan]
    by_cases h : c = 35
    · subst h
      have hp : [35] <+: 35 :: cs := by simp
      rw [if_pos hp, if_pos rfl]
      simpa using ih
    · have hp : ¬ ([35] <+: c :: cs) := by
        intro hp
        apply h
        rcases hp with ⟨t, ht⟩
        simp at ht
        exact ht.1.symm
      rw [if_neg hp, if_neg h, ih]
      rfl

/-- The escaping of `main` is the byte-wise escaping. -/
theorem stringsReplace_hash (s : GoString) (h : utf8 "#" ≠ []) :
    stringsReplace s (utf8 "#") (utf8 "\\#") h = escapeHash s :=
  replaceScan_hash s

theorem escapeHash_head (cs : GoString) : ¬ ([35] <+: escapeHash cs) := by
  cases cs with
  | nil => simp [escapeHash]
  | cons c cs =>
    rw [escapeHash_cons]
    by_cases h : c = 35
    · rw [if_pos h]
      rintro ⟨t, ht⟩
      simp at ht
    · rw [if_neg h]
      rintro ⟨t, ht⟩
      simp at ht
      exact h ht.1.symm

theorem replaceScan_unescape (cs : GoString) :
    replaceScan [92, 35] [35] 0 (escapeHash cs) = cs := by
  induction cs with
  | nil => rfl
  | cons c cs ih =>
    rw [escapeHash_cons]
    by_cases h : c = 35
    · subst h
      rw [if_pos rfl]
      have hp : [92, 35] <+: [92, 35] ++ escapeHash cs := List.prefix_append _ _
      simp only [List.cons_append, List.nil_append] at hp ⊢
      rw [replaceScan, if_pos hp]
      simp only [List.length_cons, List.length_nil, Nat.reduceAdd, Nat.add_one_sub_one,
        List.cons_append, List.nil_append]
      rw [replaceScan, ih]
    · rw [if_neg h]
      simp only [List.cons_append, List.nil_append]
      have hp : ¬ ([92, 35] <+: c :: escapeHash cs) := by
        rintro ⟨t, ht⟩
        simp only [List.cons_append, List.nil_append, List.cons.injEq] at ht
        exact escapeHash_head cs ⟨t, by simpa using ht.2⟩
      rw [replaceScan, if_neg hp, ih]

theorem escapeHash_count (cs : GoString) : (escapeHash cs).count 35 = cs.count 35 := by
  induction cs with
  | nil => rfl
  | cons c cs ih =>
    rw [escapeHash_cons]
    by_cases h : c = 35
    · subst h
      simp [ih]
    · rw [if_neg h, List.count_append, ih]
      simp [List.count_cons, h]

theorem escapeHash_preceded (cs : GoString) :
    ∀ i, (escapeHash cs).get? i = some 35 →
      ∃ j, i = j + 1 ∧ (escapeHash cs).get? j = some 92 := by
  induction cs with
  | nil =>
    intro i h
    simp [escapeHash] at h
  | cons c cs ih =>
    intro i hi
    rw [escapeHash_cons] at hi ⊢
    by_cases h : c = 35
    · rw [if_pos h] at hi ⊢
      match i, hi with
      | 0, hi => simp at hi
      | 1, _ => exact ⟨0, rfl, by simp⟩
      | i + 2, hi =>
        obtain ⟨j, hj, hj2⟩ := ih i (by simpa using hi)
        exact ⟨j + 2, by omega, by simpa using hj2⟩
    · rw [if_neg h] at hi ⊢
      match i, hi with
      | 0, hi =>
        simp at hi
        exact absurd hi h
      | i + 1, hi =>
        obtain ⟨j, hj, hj2⟩ := ih i (by simpa using hi)
        exact ⟨j + 1, by omega, by simpa using hj2⟩

theorem mainStep_eq (cal entries out : List GoString) (i : Nat) :
    mainStep cal entries out i = .ok (out ++ [leftPart cal i ++ rightPart entries i]) := by
  simp only [mainStep]
  by_cases h1 : i < cal.length <;> by_cases h2 : i < entries.length
  · rw [leftPart_of_lt _ _ h1, rightPart_of_lt _ _ h2]
    simp only [h1, h2, if_true, getAt_get, bind, Except.bind, pure, Except.pure,
      stringsReplace_hash]
  · rw [leftPart_of_lt _ _ h1, rightPart_of_ge _ _ h2]
    simp only [h1, h2, if_true, if_false, getAt_get, bind, Except.bind, pure, Except.pure]
    rfl
  · rw [leftPart_of_ge _ _ h1, rightPart_of_lt _ _ h2]
    simp only [h1, h2, if_true, if_false, getAt_get, bind, Except.bind, pure, Except.pure,
      stringsReplace_hash]
    rfl
  · rw [leftPart_of_ge _ _ h1, rightPart_of_ge _ _ h2]
    simp only [h1, h2, if_false, bind, Except.bind, pure, Except.pure]
    rfl

theorem mainLoop_upTo (cal entries : List GoString) (n : Nat) :
    (List.range n).foldlM (mainStep cal entries) []
      = .ok ((List.range n).map fun i => leftPart cal i ++ rightPart entries i) := by
  induction n with
  | zero => rfl
  | succ n ih =>
    rw [List.range_succ, List.foldlM_append, ih]
    simp only [bind, Except.bind, List.foldlM_cons, List.foldlM_nil, mainStep_eq, pure,
      Except.pure, List.map_append, List.map_cons, List.map_nil]

/-- The loop of `main` in closed form. -/
theorem mainLoop_eq (cal entries : List GoString) :
    mainLoop cal entries = .ok ((List.range (Nat.max cal.length entries.length)).map
      fun i => leftPart cal i ++ rightPart entries i) := by
  rw [mainLoop, max_eq, mainLoop_upTo]

/-! ## Failures of the event loop -/

theorem slice_short (s : GoString) (lo hi : Nat) (h : s.length < hi) :
    slice s lo hi = .error .sliceBounds := by
  have hn : ¬ (lo ≤ hi ∧ hi ≤ s.length) := by omega
  rw [slice, if_neg hn]

theorem slice_cases (s : GoString) (lo hi : Nat) :
    (∃ r, slice s lo hi = .ok r) ∨ slice s lo hi = .error .sliceBounds := by
  unfold slice
  split_ifs
  · exact Or.inl ⟨_, rfl⟩
  · exact Or.inr rfl

/-- The only failure of the loop body of `entries` is the slice-bounds panic. -/
theorem entriesItem_fault (now : Time) (st : List GoString × GoString) (e : Event) (f : Fault)
    (h : entriesItem now st e = .error f) : f = .sliceBounds := by
  unfold entriesItem at h
  rcases slice_cases e.Start.DateTime 11 16 with ⟨r1, h1⟩ | h1
  · rcases slice_cases e.End.DateTime 11 16 with ⟨r2, h2⟩ | h2
    · rcases slice_cases (if e.Start.DateTime = [] then e.Start.Date else e.Start.DateTime) 0 10
        with ⟨r3, h3⟩ | h3
      · rcases slice_cases e.Status 0 3 with ⟨r4, h4⟩ | h4
        · simp [h1, h2, h3, h4, bind, Except.bind, pure, Except.pure] at h
        · simp [h1, h2, h3, h4, bind, Except.bind, pure, Except.pure] at h
          exact h.symm
      · simp [h1, h2, h3, bind, Except.bind, pure, Except.pure] at h
        exact h.symm
    · simp [h1, h2, bind, Except.bind, pure, Except.pure] at h
      exact h.symm
  · simp [h1, bind, Except.bind, pure, Except.pure] at h
    exact h.symm

/-- A record whose start or end date-time has fewer than 16 bytes makes the loop body
fail. -/
theorem entriesItem_short (now : Time) (st : List GoString × GoString) (e : Event)
    (h : e.Start.DateTime.length < 16 ∨ e.End.DateTime.length < 16) :
    entriesItem now st e = .error .sliceBounds := by
  unfold entriesItem
  rcases slice_cases e.Start.DateTime 11 16 with ⟨r1, h1⟩ | h1
  · rcases h with h | h
    · rw [slice_short _ _ _ h] at h1
      exact absurd h1 (by simp)
    · simp [h1, slice_short _ _ _ h, bind, Except.bind]
  · simp [h1, bind, Except.bind]

theorem entries_foldlM_short (now : Time) (items : List Event) (e : Event) (he : e ∈ items)
    (h : e.Start.DateTime.length < 16 ∨ e.End.DateTime.length < 16) :
    ∀ st, items.foldlM (entriesItem now) st = .error .sliceBounds := by
  induction items with
  | nil => exact absurd he (by simp)
  | cons x xs ih =>
    intro st
    rw [List.foldlM_cons]
    rcases hx : entriesItem now st x with f | st2
    · rw [entriesItem_fault now st x f hx]
      rfl
    · rcases List.mem_cons.1 he with rfl | hmem
      · rw [entriesItem_short now st e h] at hx
        exact absurd hx (by simp)
      · exact ih hmem st2

/-- A list that holds a record with a start or end date-time of fewer than 16 bytes makes
`entries` panic. -/
theorem entries_short (now : Time) (items : List Event) (e : Event) (he : e ∈ items)
    (h : e.Start.DateTime.length < 16 ∨ e.End.DateTime.length < 16) :
    entries now items = .error .sliceBounds := by
  have hne : items.length ≠ 0 := by
    intro h0
    rw [List.length_eq_zero.1 h0] at he
    exact absurd he (by simp)
  rw [entries, if_neg hne, entries_foldlM_short now items e he h]
  rfl

/-! ## Results on failures, the compositor and the escaping -/

/-- C11, counterexample: a record whose start date-time `2024-01-10T09:0` is present but has
only 15 characters (15 bytes) makes `entries` fail with the slice-bounds panic of Go, the
failure the claim excludes; the code has no other failure kind for it.  And a record whose start
date-time `2024-01-10T09:é` has 15 characters but 16 bytes makes `entries` fail in no way: the
slice `DateTime[11:16]` counts bytes and is in range. -/
theorem entries_short_start_slice_panic :
    (sampleShort.Start.DateTime = utf8 "2024-01-10T09:0" ∧ "2024-01-10T09:0".length = 15 ∧
      sampleShort.Start.DateTime.length = 15 ∧
      entries sampleNow [sampleShort] = .error Fault.sliceBounds) ∧
    (sampleWide.Start.DateTime = utf8 "2024-01-10T09:é" ∧ "2024-01-10T09:é".length = 15 ∧
      sampleWide.Start.DateTime.length = 16 ∧
      entries sampleNow [sampleWide] = .ok
        [utf8 "Today, 2024-01-10",
          utf8 "$\x7bcolor1\x7d09:é-10:00$\x7bcolor0\x7d [con] Standup"]) :=
  ⟨⟨by rfl, by decide, by decide, by rfl⟩, ⟨by rfl, by decide, by decide, by rfl⟩⟩

/-- C11, amended: for every record list that holds a record whose start or end date-time is
present (non-empty) but shorter than 16 bytes, `entries` fails, and the failure is the
slice-bounds run-time panic of `DateTime[11:16]`; no line is returned.  The length that counts
is the length in bytes: for an ASCII date-time it is the number of characters. -/
theorem short_datetime_fails_with_slice_panic (now : Time) (items : List Event) (e : Event)
    (he : e ∈ items)
    (h : (e.Start.DateTime ≠ [] ∧ e.Start.DateTime.length < 16) ∨
      (e.End.DateTime ≠ [] ∧ e.End.DateTime.length < 16)) :
    (entries now items = .error Fault.sliceBounds ∧
      ∀ lines, entries now items ≠ .ok lines) ∧
    (slice e.Start.DateTime 11 16 = .error Fault.sliceBounds ∨
      slice e.End.DateTime 11 16 = .error Fault.sliceBounds) ∧
    (∀ cs : List Char, (∀ c ∈ cs, c.toNat < 128) → (utf8 ⟨cs⟩).length = cs.length) := by
  have hs : e.Start.DateTime.length < 16 ∨ e.End.DateTime.length < 16 := by
    rcases h with h | h
    · exact Or.inl h.2
    · exact Or.inr h.2
  have hr := entries_short now items e he hs
  refine ⟨⟨hr, ?_⟩, ?_, fun cs hcs => (utf8_ascii_take cs hcs 0).2.2⟩
  · intro lines hl
    rw [hr] at hl
    exact absurd hl (by simp)
  · rcases hs with h | h
    · exact Or.inl (slice_short _ _ _ h)
    · exact Or.inr (slice_short _ _ _ h)

/-- Witness of C11 (amended): the sample record with a start date-time of 15 bytes. -/
theorem short_datetime_fails_with_slice_panic_witness :
    (sampleShort ∈ [sampleShort] ∧
      ((sampleShort.Start.DateTime ≠ [] ∧ sampleShort.Start.DateTime.length < 16) ∨
        (sampleShort.End.DateTime ≠ [] ∧ sampleShort.End.DateTime.length < 16))) ∧
    entries sampleNow [sampleShort] = .error Fault.sliceBounds :=
  ⟨⟨by decide, by decide⟩,
    (short_datetime_fails_with_slice_panic sampleNow [sampleShort] sampleShort (by decide)
      (by decide)).1.1⟩

/-- C12, the code at a failing input: for the all-day sample record (no start date-time, start
date `2024-01-10`, the date of `sampleNow`) the label of the date-only value would be
`Today, 2024-01-10`, but `entries` panics on `item.Start.DateTime[11:16]` and returns no line;
so it does for every list that holds a record without a start date-time. -/
theorem entries_all_day_panics :
    sampleAllDay.Start.DateTime = [] ∧ sampleAllDay.Start.Date = utf8 "2024-01-10" ∧
    dateLabel sampleNow sampleAllDay.Start.Date = utf8 "Today, 2024-01-10" ∧
    entries sampleNow [sampleAllDay] = .error Fault.sliceBounds ∧
    ∀ (now : Time) (items : List Event) (e : Event), e ∈ items → e.Start.DateTime = [] →
      entries now items = .error Fault.sliceBounds := by
  refine ⟨by rfl, by rfl, by rfl, by rfl, ?_⟩
  intro now items e he h0
  apply entries_short now items e he
  rw [h0]
  exact Or.inl (by decide)

/-- C13: the core operations are total on well-formed input.  The grid builder returns for
every clock reading and week count (no index or slice failure: every write to `output[week+1]`
and every `Month().String()[0:3]` is in bounds), and `entries` returns for every list of records
whose start and end date-time have at least 16 bytes and whose status has at least 3 bytes
(so for all those with at least 16 and 3 characters).  The grid builder returns in every
location. -/
theorem core_operations_total :
    (∀ (now : Time) (weeks : Nat), ∃ lines, printCalWith now weeks = .ok lines) ∧
    (∀ now : Time, ∃ lines, printCal now = .ok lines) ∧
    (∀ (now : Time) (week weekday : Nat) (output : List GoString), weekday < 7 →
      week + 1 < output.length →
      ∃ out, printCalDay now (firstDayOfWeek now) week weekday output = .ok out ∧
        out.length = output.length) ∧
    (∀ t : Time, ∃ abbr, slice (monthName t.Month) 0 3 = .ok abbr) ∧
    (∀ (now : Time) (items : List Event),
      (∀ e ∈ items, 16 ≤ e.Start.DateTime.length ∧ 16 ≤ e.End.DateTime.length ∧
        3 ≤ e.Status.length) →
      ∃ lines, entries now items = .ok lines) ∧
    (∀ (loc : Location) (now : Time), ∃ lines, printCalIn loc now = .ok lines) := by
  refine ⟨fun now weeks => ⟨_, printCalWith_eq now weeks⟩,
    fun now => ⟨_, printCalWith_eq now 14⟩, ?_, ?_, ?_,
    fun loc now => ⟨_, (printCalIn_total loc now).choose_spec.1⟩⟩
  · intro now week weekday output hk hi
    have hmon := firstDayOfWeek_weekday now
    by_cases h0 : weekday = 0
    · subst h0
      exact ⟨_, printCalDay_zero now _ hmon week output hi, by simp⟩
    · obtain ⟨cur, hcur⟩ : ∃ cur, output.get? (week + 1) = some cur :=
        ⟨_, List.get?_eq_get hi⟩
      exact ⟨_, printCalDay_succ now _ hmon week weekday hk h0 output cur hi hcur, by simp⟩
  · intro t
    have hm := absDate_spec t.abs
    exact ⟨_, slice_monthName t.Month ⟨hm.1, hm.2.1⟩⟩
  · intro now items hwf
    by_cases hne : items = []
    · subst hne
      exact ⟨_, rfl⟩
    · exact ⟨_, entries_eq now items hne hwf⟩

/-- Witness of C13: the grid of `sampleNow` and the event list of the two sample records. -/
theorem core_operations_total_witness :
    (∀ e ∈ [sampleStandup, sampleReview], 16 ≤ e.Start.DateTime.length ∧
      16 ≤ e.End.DateTime.length ∧ 3 ≤ e.Status.length) ∧
    (∃ lines, printCal sampleNow = .ok lines) ∧
    ∃ lines, entries sampleNow [sampleStandup, sampleReview] = .ok lines :=
  ⟨by decide, core_operations_total.2.1 sampleNow,
    core_operations_total.2.2.2.2.1 sampleNow [sampleStandup, sampleReview] (by decide)⟩

/-- C16: on the empty record list `entries` returns the single line
`No upcoming events found.`, for every clock reading. -/
theorem entries_empty (now : Time) : entries now [] = .ok [utf8 "No upcoming events found."] :=
  rfl

/-- C17: `firstDayOfWeek` always lands on a Monday (Go weekday 1) and is idempotent; so in
`printCal` the test `day == firstDayOfWeek(day)` holds exactly at slot 0 of each row, and a row
ends as the prefix, assigned first, followed by its seven cells, whatever the row held before. -/
theorem firstDayOfWeek_idempotent (t : Time) :
    (firstDayOfWeek t).Weekday = 1 ∧
    firstDayOfWeek (firstDayOfWeek t) = firstDayOfWeek t ∧
    (∀ week weekday : Nat, weekday < 7 →
      (gridDay (firstDayOfWeek t) week weekday
          = firstDayOfWeek (gridDay (firstDayOfWeek t) week weekday)
        ↔ weekday = 0)) ∧
    (∀ (week : Nat) (output : List GoString), week + 1 < output.length →
      printCalWeek t (firstDayOfWeek t) week output
        = .ok (output.set (week + 1) (gridPrefix (firstDayOfWeek t) week
            ++ (gridCells t (firstDayOfWeek t) week).flatten))) := by
  have hmon := firstDayOfWeek_weekday t
  refine ⟨hmon, ?_, fun week weekday hk => gridDay_isFirst _ hmon week weekday hk,
    fun week output hi => printCalWeek_eq t _ hmon week output hi⟩
  have h := hmon
  rw [firstDayOfWeek_eq] at h ⊢
  rw [firstDayOfWeek_eq]
  simp only [Time.Weekday] at h ⊢
  congr 1
  omega

/-- Witness of C17: in the grid of `sampleNow` slot 0 of row 2 passes the test, slot 6 (a
Sunday) does not. -/
theorem firstDayOfWeek_idempotent_witness :
    (0 < 7 ∧ 6 < 7) ∧
    gridDay (firstDayOfWeek sampleNow) 2 0
      = firstDayOfWeek (gridDay (firstDayOfWeek sampleNow) 2 0) ∧
    ¬ gridDay (firstDayOfWeek sampleNow) 2 6
      = firstDayOfWeek (gridDay (firstDayOfWeek sampleNow) 2 6) :=
  ⟨by decide, ((firstDayOfWeek_idempotent sampleNow).2.2.1 2 0 (by decide)).2 rfl,
    fun h => absurd (((firstDayOfWeek_idempotent sampleNow).2.2.1 2 6 (by decide)).1 h)
      (by decide)⟩

theorem mainLoop_get (left right : List GoString) (i : Nat)
    (hi : i < Nat.max left.length right.length) :
    ((List.range (Nat.max left.length right.length)).map
      fun i => leftPart left i ++ rightPart right i).get? i
      = some (leftPart left i ++ rightPart right i) := by
  rw [List.get?_eq_getElem?, List.getElem?_map, List.getElem?_range hi]
  rfl

theorem leftPart_dite (left : List GoString) (i : Nat) :
    leftPart left i
      = if h : i < left.length then left.get ⟨i, h⟩ ++ [32, 32, 32, 32]
        else List.replicate 29 32 := by
  by_cases h : i < left.length
  · rw [dif_pos h, leftPart_of_lt left i h]
    rfl
  · rw [dif_neg h, leftPart_of_ge left i h]

theorem rightPart_dite (right : List GoString) (i : Nat) :
    rightPart right i
      = if h : i < right.length then
          (right.get ⟨i, h⟩).flatMap fun c => if c = 35 then [92, 35] else [c]
        else [] := by
  by_cases h : i < right.length
  · rw [dif_pos h, rightPart_of_lt right i h]
    rfl
  · rw [dif_neg h, rightPart_of_ge right i h]

/-- C14: the compositor emits as many combined lines as the longer of the two sequences has:
the number is at least both lengths and equal to one of them.  Line `i` is the left part
followed by the right part; the left part is `left[i]` and the separator of 4 blanks when
`i < len(left)`, else a filler of 29 blanks, the visible width of a grid row (25) plus the
separator (4); the right part is `right[i]` with every `#` (byte 35) replaced by a backslash
(byte 92) and `#` and every other byte kept when `i < len(right)`, else empty.  Left lines of
length 3 beside right lines of length 5 give 5 lines, the last 2 with the filler; left lines
of length 5 beside right lines of length 3 give 5 lines, the last 2 with an empty right
part. -/
theorem compositor_lines (left right : List GoString) :
    (∃ out, mainLoop left right = .ok out ∧
      out.length = Nat.max left.length right.length ∧
      (left.length ≤ out.length ∧ right.length ≤ out.length ∧
        (out.length = left.length ∨ out.length = right.length)) ∧
      ∀ i, i < out.length →
        out.get? i = some
          ((if h : i < left.length then left.get ⟨i, h⟩ ++ [32, 32, 32, 32]
            else List.replicate 29 32)
          ++ (if h : i < right.length then
              (right.get ⟨i, h⟩).flatMap fun c => if c = 35 then [92, 35] else [c]
            else []))) ∧
    (utf8 "    " = [32, 32, 32, 32] ∧ utf8 "#" = [35] ∧ utf8 "\\#" = [92, 35] ∧
      ∀ (now first : Time) (week : Nat),
        (List.replicate 29 (32 : UInt8)).length = (visible (gridRow now first week)).length + 4
          ∧ (visible (gridRow now first week)).length = 25) ∧
    mainLoop [utf8 "a", utf8 "b", utf8 "c"]
        [utf8 "1", utf8 "2 #", utf8 "3", utf8 "4", utf8 "#5#"] = .ok
      [utf8 "a    1", utf8 "b    2 \\#", utf8 "c    3",
        utf8 "                             4", utf8 "                             \\#5\\#"] ∧
    mainLoop [utf8 "a", utf8 "b", utf8 "c", utf8 "d", utf8 "e"]
        [utf8 "#1", utf8 "2", utf8 "3"] = .ok
      [utf8 "a    \\#1", utf8 "b    2", utf8 "c    3", utf8 "d    ", utf8 "e    "] := by
  have hlen : ((List.range (Nat.max left.length right.length)).map
      fun i => leftPart left i ++ rightPart right i).length
      = Nat.max left.length right.length := by simp
  refine ⟨⟨_, mainLoop_eq left right, hlen, ?_, ?_⟩,
    ⟨by rfl, by rfl, by rfl, fun now first week => ?_⟩, by rfl, by rfl⟩
  · rw [hlen]
    refine ⟨Nat.le_max_left _ _, Nat.le_max_right _ _, ?_⟩
    rcases Nat.le_total left.length right.length with h | h
    · exact Or.inr (Nat.max_eq_right h)
    · exact Or.inl (Nat.max_eq_left h)
  · intro i hi
    rw [hlen] at hi
    rw [mainLoop_get left right i hi, leftPart_dite, rightPart_dite]
  · rw [visible_gridRow_length]
    exact ⟨rfl, rfl⟩

/-- Witness of C14: left lines of length 3 beside right lines of length 5, two of them with
`#`: 5 lines, line 1 with the escaped right line, line 4 the filler and the escaped right
line. -/
theorem compositor_lines_witness :
    ∃ out, mainLoop [utf8 "a", utf8 "b", utf8 "c"]
        [utf8 "1", utf8 "2 #", utf8 "3", utf8 "4", utf8 "#5#"] = .ok out ∧
      out.length = 5 ∧
      out.get? 1 = some (utf8 "b    2 \\#") ∧
      out.get? 4 = some (utf8 "                             \\#5\\#") := by
  obtain ⟨out, h1, h2, _, h4⟩ :=
    (compositor_lines [utf8 "a", utf8 "b", utf8 "c"]
      [utf8 "1", utf8 "2 #", utf8 "3", utf8 "4", utf8 "#5#"]).1
  have h5 : out.length = 5 := by
    rw [h2]
    rfl
  refine ⟨out, h1, h5, ?_, ?_⟩
  · rw [h4 1 (by rw [h5]; decide)]
    rfl
  · rw [h4 4 (by rw [h5]; decide)]
    rfl

/-- C15: `entries` leaves `#` alone and the compositor escapes it.  For a well-formed record
`e` anywhere in the input the event line is emitted as `... ++ summary`, the summary unmodified;
in the composed output the right part of the same line is the event line with every `#`
(byte 35) replaced by a backslash (byte 92) and `#` and every other byte kept, and every left
line stands unaltered at the start of its composed line. -/
theorem hash_escaped_by_compositor (now : Time) (cal : List GoString) (pre post : List Event)
    (e : Event) (hwf : ∀ x ∈ pre ++ e :: post, x.wellFormed) :
    ∃ lines out i, entries now (pre ++ e :: post) = .ok lines ∧
      lines.get? i = some (eventLine e) ∧
      (∃ p, eventLine e = p ++ e.Summary) ∧
      mainLoop cal lines = .ok out ∧
      out.get? i = some (leftPart cal i
        ++ (eventLine e).flatMap fun c => if c = 35 then [92, 35] else [c]) ∧
      stringsReplace (eventLine e) (utf8 "#") (utf8 "\\#") (by decide)
        = ((eventLine e).flatMap fun c => if c = 35 then [92, 35] else [c]) ∧
      ∀ j (h : j < cal.length), ∃ r, out.get? j = some (cal.get ⟨j, h⟩ ++ utf8 "    " ++ r) := by
  obtain ⟨last, h⟩ := eventBlocks_append now pre (e :: post) []
  have hent := entries_eq now (pre ++ e :: post) (by simp) hwf
  rw [h, eventBlocks] at hent
  generalize hA : eventBlocks now [] pre
    ++ (if last ≠ eventDate e then [dateLabel now (eventDate e)] else []) = A at *
  generalize hB : locationLines e ++ eventBlocks now (eventDate e) post = B at *
  have hlines : eventBlocks now [] pre ++ ((if last ≠ eventDate e then
      [dateLabel now (eventDate e)] else []) ++ [eventLine e] ++ locationLines e
      ++ eventBlocks now (eventDate e) post) = A ++ eventLine e :: B := by
    rw [← hA, ← hB]
    simp
  rw [hlines] at hent
  have hget : (A ++ eventLine e :: B).get? A.length = some (eventLine e) := by
    rw [List.get?_eq_getElem?, List.getElem?_append_right (le_refl _)]
    simp
  have hesc : stringsReplace (eventLine e) (utf8 "#") (utf8 "\\#") (by decide)
      = ((eventLine e).flatMap fun c => if c = 35 then [92, 35] else [c]) :=
    stringsReplace_hash (eventLine e) (by decide)
  have hlt : A.length < (A ++ eventLine e :: B).length := by simp
  have hg2 : (A ++ eventLine e :: B).get ⟨A.length, hlt⟩ = eventLine e := by
    have h2 := List.get?_eq_get hlt
    rw [hget] at h2
    exact (Option.some.inj h2).symm
  refine ⟨_, _, A.length, hent, hget, ⟨_, rfl⟩, mainLoop_eq cal _, ?_, hesc, ?_⟩
  · rw [mainLoop_get cal _ A.length (lt_of_lt_of_le hlt (Nat.le_max_right _ _)),
      rightPart_of_lt _ _ hlt, hg2]
    rfl
  · intro j hj
    refine ⟨rightPart (A ++ eventLine e :: B) j, ?_⟩
    rw [mainLoop_get cal _ j (lt_of_lt_of_le hj (Nat.le_max_left _ _)), leftPart_of_lt cal j hj]

set_option maxRecDepth 100000 in
theorem mainLoop_sampleHash :
    mainLoop [utf8 "grid"] [utf8 "Today, 2024-01-10",
      utf8 "$\x7bcolor1\x7d09:00-10:00$\x7bcolor0\x7d [con] Issue #42"] = .ok
      [utf8 "grid    Today, 2024-01-10",
        utf8 "                             $\x7bcolor1\x7d09:00-10:00$\x7bcolor0\x7d [con] Issue \\#42"] := by
  rfl

/-- Witness of C15: the sample record with the summary `Issue #42`, beside a one-line grid. -/
theorem hash_escaped_by_compositor_witness :
    (∀ x ∈ [] ++ sampleHash :: [], x.wellFormed) ∧
    entries sampleNow [sampleHash] = .ok [utf8 "Today, 2024-01-10",
      utf8 "$\x7bcolor1\x7d09:00-10:00$\x7bcolor0\x7d [con] Issue #42"] ∧
    mainLoop [utf8 "grid"] [utf8 "Today, 2024-01-10",
      utf8 "$\x7bcolor1\x7d09:00-10:00$\x7bcolor0\x7d [con] Issue #42"] = .ok
      [utf8 "grid    Today, 2024-01-10",
        utf8 "                             $\x7bcolor1\x7d09:00-10:00$\x7bcolor0\x7d [con] Issue \\#42"]
    ∧ ∃ lines out i, entries sampleNow ([] ++ sampleHash :: []) = .ok lines ∧
      lines.get? i = some (eventLine sampleHash) ∧ mainLoop [utf8 "grid"] lines = .ok out := by
  have hwf : ∀ x ∈ [] ++ sampleHash :: [], x.wellFormed := by decide
  obtain ⟨lines, out, i, h1, h2, _, h4, _⟩ :=
    hash_escaped_by_compositor sampleNow [utf8 "grid"] [] [] sampleHash hwf
  exact ⟨hwf, by rfl, mainLoop_sampleHash, lines, out, i, h1, h2, h4⟩

/-- C18: the escaping of the compositor is lossless.  In `escape(s)`, the result of replacing
every `#` of `s` by a backslash and `#`, every `#` (byte 35) is immediately preceded by a
backslash (byte 92), there are as many `#` as in `s`, and replacing every backslash-`#` by `#`
gives `s` back. -/
theorem escape_lossless (s : GoString) :
    (∀ i, (stringsReplace s (utf8 "#") (utf8 "\\#") (by decide)).get? i = some 35 →
      ∃ j, i = j + 1 ∧
        (stringsReplace s (utf8 "#") (utf8 "\\#") (by decide)).get? j = some 92) ∧
    (stringsReplace s (utf8 "#") (utf8 "\\#") (by decide)).count 35 = s.count 35 ∧
    stringsReplace (stringsReplace s (utf8 "#") (utf8 "\\#") (by decide))
      (utf8 "\\#") (utf8 "#") (by decide) = s := by
  have hd := stringsReplace_hash s (by decide)
  refine ⟨?_, ?_, ?_⟩
  · rw [hd]
    exact escapeHash_preceded s
  · rw [hd]
    exact escapeHash_count s
  · rw [hd]
    exact replaceScan_unescape s

/-- Witness of C18: `a#b\#`, whose last `#` already follows a backslash. -/
theorem escape_lossless_witness :
    stringsReplace (utf8 "a#b\\#") (utf8 "#") (utf8 "\\#") (by decide) = utf8 "a\\#b\\\\#" ∧
    (stringsReplace (utf8 "a#b\\#") (utf8 "#") (utf8 "\\#") (by decide)).get? 2 = some 35 ∧
    (∃ j, 2 = j + 1 ∧
      (stringsReplace (utf8 "a#b\\#") (utf8 "#") (utf8 "\\#") (by decide)).get? j = some 92) ∧
    stringsReplace (stringsReplace (utf8 "a#b\\#") (utf8 "#") (utf8 "\\#") (by decide))
      (utf8 "\\#") (utf8 "#") (by decide) = utf8 "a#b\\#" :=
  ⟨by decide, by decide, (escape_lossless (utf8 "a#b\\#")).1 2 (by decide),
    (escape_lossless (utf8 "a#b\\#")).2.2⟩

/-! ## The calendar grid in America/Santiago -/

set_option maxRecDepth 100000 in
/-- The grid of `printCal` in America/Santiago at Monday 2024-09-02 00:30. -/
theorem printCalIn_santiago_grid :
    printCalIn Location.santiago sampleSantiagoNow = .ok
      [utf8 "$\x7bcolor1\x7d    Mo Di Mi Do Fr Sa So $\x7bcolor0\x7d",
        utf8 "$\x7bcolor1\x7dSep$\x7bcolor0\x7d $\x7bcolor1\x7d 2 $\x7bcolor0\x7d 3  4  5  6  7  7 ",
        utf8 "     9 10 11 12 13 14 15 ",
        utf8 "    16 17 18 19 20 21 22 ",
        utf8 "    23 24 25 26 27 28 29 ",
        utf8 "$\x7bcolor1\x7dOct$\x7bcolor0\x7d 30  1  2  3  4  5  6 ",
        utf8 "     7  8  9 10 11 12 13 ",
        utf8 "    14 15 16 17 18 19 20 ",
        utf8 "    21 22 23 24 25 26 27 ",
        utf8 "$\x7bcolor1\x7dNov$\x7bcolor0\x7d 28 29 30 31  1  2  3 ",
        utf8 "     4  5  6  7  8  9 10 ",
        utf8 "    11 12 13 14 15 16 17 ",
        utf8 "    18 19 20 21 22 23 24 ",
        utf8 "$\x7bcolor1\x7dDec$\x7bcolor0\x7d 25 26 27 28 29 30  1 ",
        utf8 "     2  3  4  5  6  7  8 "] := by
  decide!

set_option maxRecDepth 100000 in
/-- The seven dates of row 0 of that grid. -/
theorem gridDayIn_santiago_row :
    (List.range 7).map (fun k =>
        gridDayIn Location.santiago (firstDayOfWeekIn Location.santiago sampleSantiagoNow) 0 k)
      = [⟨739130, 1800⟩, ⟨739131, 1800⟩, ⟨739132, 1800⟩, ⟨739133, 1800⟩, ⟨739134, 1800⟩,
          ⟨739135, 1800⟩, ⟨739135, 84600⟩] := by
  decide

/-- C3, the code at a failing input: in America/Santiago at Monday 2024-09-02 00:30 row 0 of
the grid carries the prefix `Sep`, although its seven dates are September 2, 3, 4, 5, 6, 7 and
7 again, none of them the 1st of a month.  The Sunday 2024-09-08 00:30 that `lastDayOfWeek`
asks for does not exist there (at 24:00 of Saturday the clocks go to 01:00); `AddDate` resolves
it to Saturday 2024-09-07 23:30, whose day of the month 7 passes the test `Day() <= 7`.  In a
location without zone transitions the same row has the prefix of 4 blanks. -/
theorem printCalIn_santiago_prefix_without_first :
    (∃ rest, printCalIn Location.santiago sampleSantiagoNow = .ok
      (utf8 "$\x7bcolor1\x7d    Mo Di Mi Do Fr Sa So $\x7bcolor0\x7d"
        :: (color 1 (utf8 "Sep") ++ utf8 " " ++ color 1 (utf8 " 2 ")
            ++ utf8 " 3  4  5  6  7  7 ") :: rest) ∧ rest.length = 13) ∧
    firstDayOfWeekIn Location.santiago sampleSantiagoNow = sampleSantiagoNow ∧
    (List.range 7).map (fun k => absDate
        (gridDayIn Location.santiago (firstDayOfWeekIn Location.santiago sampleSantiagoNow) 0 k).abs)
      = [(2024, 9, 2), (2024, 9, 3), (2024, 9, 4), (2024, 9, 5), (2024, 9, 6), (2024, 9, 7),
          (2024, 9, 7)] ∧
    (∀ k < 7, (gridDayIn Location.santiago
        (firstDayOfWeekIn Location.santiago sampleSantiagoNow) 0 k).Day ≠ 1) ∧
    Date 2024 9 8 1800 = ⟨739136, 1800⟩ ∧
    DateIn Location.santiago 2024 9 8 1800 = ⟨739135, 84600⟩ ∧
    lastDayOfWeekIn Location.santiago sampleSantiagoNow = ⟨739135, 84600⟩ ∧
    (lastDayOfWeekIn Location.santiago sampleSantiagoNow).Day = 7 ∧
    (∃ rest, printCal sampleSantiagoNow = .ok
      (utf8 "$\x7bcolor1\x7d    Mo Di Mi Do Fr Sa So $\x7bcolor0\x7d"
        :: (utf8 "    " ++ color 1 (utf8 " 2 ") ++ utf8 " 3  4  5  6  7  8 ") :: rest)) := by
  have hrow := gridDayIn_santiago_row
  refine ⟨⟨_, printCalIn_santiago_grid, rfl⟩, by decide, ?_, ?_, by decide, by decide,
    by decide, by decide, ⟨_, printCalWith_eq sampleSantiagoNow 14⟩⟩
  · have h := congrArg (List.map fun t : Time => absDate t.abs) hrow
    rw [List.map_map] at h
    exact h
  · intro k hk
    have hm : gridDayIn Location.santiago
        (firstDayOfWeekIn Location.santiago sampleSantiagoNow) 0 k ∈
        (List.range 7).map (fun k => gridDayIn Location.santiago
          (firstDayOfWeekIn Location.santiago sampleSantiagoNow) 0 k) :=
      List.mem_map.2 ⟨k, List.mem_range.2 hk, rfl⟩
    rw [hrow] at hm
    revert hm
    generalize gridDayIn Location.santiago
      (firstDayOfWeekIn Location.santiago sampleSantiagoNow) 0 k = t
    intro hm
    simp only [List.mem_cons, List.mem_singleton, List.not_mem_nil, or_false] at hm
    rcases hm with h | h | h | h | h | h | h <;> rw [h] <;> decide

/-- C6, the code at a failing input: in America/Santiago at Monday 2024-09-02 00:30 slot 6 of
row 0, under the header column `So`, holds Saturday 2024-09-07 23:30: its weekday is Saturday
(Go weekday 6), not Sunday, it is the day of slot 5 again and not the first day of the week
plus 6 days, and the cell shows 7, not 8.  The Sunday 2024-09-08 00:30 that `AddDate` asks for
does not exist there; `time.Date` moves it back across the transition. -/
theorem printCalIn_santiago_sunday_slot_is_saturday :
    firstDayOfWeekIn Location.santiago sampleSantiagoNow = ⟨739130, 1800⟩ ∧
    absDate 739130 = (2024, 9, 2) ∧
    gridDayIn Location.santiago (firstDayOfWeekIn Location.santiago sampleSantiagoNow) 0 5
      = ⟨739135, 1800⟩ ∧
    gridDayIn Location.santiago (firstDayOfWeekIn Location.santiago sampleSantiagoNow) 0 6
      = ⟨739135, 84600⟩ ∧
    absDate 739135 = (2024, 9, 7) ∧
    (gridDayIn Location.santiago
      (firstDayOfWeekIn Location.santiago sampleSantiagoNow) 0 6).Weekday = 6 ∧
    (gridDayIn Location.santiago
      (firstDayOfWeekIn Location.santiago sampleSantiagoNow) 0 6).abs
        ≠ (firstDayOfWeekIn Location.santiago sampleSantiagoNow).abs + 6 ∧
    absDate ((firstDayOfWeekIn Location.santiago sampleSantiagoNow).abs + 6) = (2024, 9, 8) ∧
    fmtD2 (gridDayIn Location.santiago
      (firstDayOfWeekIn Location.santiago sampleSantiagoNow) 0 6).Day = utf8 " 7" ∧
    ∃ lines, printCalIn Location.santiago sampleSantiagoNow = .ok lines ∧
      lines.get? 1 = some (color 1 (utf8 "Sep") ++ utf8 " " ++ color 1 (utf8 " 2 ")
        ++ utf8 " 3  4  5  6  7  7 ") := by
  refine ⟨by decide, by decide, by decide, by decide, by decide, by decide, by decide,
    by decide, by decide, _, printCalIn_santiago_grid, rfl⟩

end GcalConky
